import Mathlib

/-!
Verification development for the Transaction Text Extraction Engine of the
finance-transaction-extractor repository, together with a control-flow model
of the repository's endpoint test script (`src/backend/test-routes.py`).

The extraction engine itself is absent from the repository source (only the
HTTP test script exists), so the engine definitions below are modelled from
the specification document, as faithfully to its words as possible.  Text is
embedded as `List Char`; decimal quantities as an integer mantissa together
with a power-of-ten exponent.
-/

set_option maxRecDepth 4000

namespace FTE

/-- Text is embedded as a list of characters. -/
abbrev Text := List Char

/-! ## Basic character and text utilities -/

/-- Modelled from the spec: whitespace characters relevant to trimming and
collapsing (space, tab, newline, carriage return). -/
def isWS (c : Char) : Bool :=
  c == ' ' || c == '\t' || c == '\n' || c == '\r'

/-- Decimal digit test. -/
def isDigit (c : Char) : Bool :=
  '0' ≤ c && c ≤ '9'

/-- Numeric value of a digit character. -/
def digitVal (c : Char) : Nat :=
  c.toNat - '0'.toNat

/-- The digit character for a value below ten. -/
def digitChar (m : Nat) : Char :=
  ['0', '1', '2', '3', '4', '5', '6', '7', '8', '9'].getD m '0'

/-- The uppercase/lowercase letter pairs. -/
def upperLower : List (Char × Char) :=
  [('A', 'a'), ('B', 'b'), ('C', 'c'), ('D', 'd'), ('E', 'e'), ('F', 'f'),
   ('G', 'g'), ('H', 'h'), ('I', 'i'), ('J', 'j'), ('K', 'k'), ('L', 'l'),
   ('M', 'm'), ('N', 'n'), ('O', 'o'), ('P', 'p'), ('Q', 'q'), ('R', 'r'),
   ('S', 's'), ('T', 't'), ('U', 'u'), ('V', 'v'), ('W', 'w'), ('X', 'x'),
   ('Y', 'y'), ('Z', 'z')]

/-- ASCII lower-casing (table-based so that proofs can reason about it). -/
def lowerChar (c : Char) : Char :=
  ((upperLower.find? (fun p => p.1 == c)).map Prod.snd).getD c

/-- Lower-case a whole text. -/
def lowerT (t : Text) : Text := t.map lowerChar

/-- Drop leading whitespace. -/
def trimLeft (t : Text) : Text := t.dropWhile isWS

/-- Drop trailing whitespace. -/
def trimRight (t : Text) : Text := (t.reverse.dropWhile isWS).reverse

/-- Modelled from the spec: trim both ends of a span. -/
def trim (t : Text) : Text := trimRight (trimLeft t)

/-- Run-collapsing loop: the flag records whether the previous character was
whitespace (in which case further whitespace is dropped). -/
def collapseAux : Bool → Text → Text
  | _, [] => []
  | inRun, c :: rest =>
    if isWS c then
      if inRun then collapseAux true rest
      else ' ' :: collapseAux true rest
    else c :: collapseAux false rest

/-- Modelled from the spec: collapse internal whitespace runs to a single
space character. -/
def collapseWS (t : Text) : Text := collapseAux false t

/-- Modelled from the spec: Description normalization — trim, then collapse
internal whitespace runs to a single space. -/
def normalizeDesc (t : Text) : Text := collapseWS (trim t)

/-- Split a text at every occurrence of a separator character. -/
def splitOnC (sep : Char) : Text → List Text
  | [] => [[]]
  | c :: rest =>
    if c == sep then [] :: splitOnC sep rest
    else
      match splitOnC sep rest with
      | [] => [[c]]
      | w :: ws => (c :: w) :: ws

/-- Drop a trailing carriage return from a line, if present. -/
def stripCR (t : Text) : Text :=
  match t.reverse with
  | [] => t
  | c :: r => if c = '\r' then r.reverse else t

/-- Modelled from the spec: split raw text into lines, tolerating Windows
line endings. -/
def splitLines (t : Text) : List Text :=
  (splitOnC '\n' t).map stripCR

/-- Split a text at whitespace characters (raw pieces, possibly empty). -/
def splitWSAll : Text → List Text
  | [] => [[]]
  | c :: rest =>
    if isWS c then [] :: splitWSAll rest
    else
      match splitWSAll rest with
      | [] => [[c]]
      | w :: ws => (c :: w) :: ws

/-- The whitespace-separated tokens of a text (nonempty pieces). -/
def wsTokens (t : Text) : List Text :=
  (splitWSAll t).filter (fun w => !w.isEmpty)

/-! ## Decimal digit rendering and reading -/

/-- Fueled accumulator loop for rendering a natural number in decimal (the
fuel only needs to be at least the number of digits). -/
def natDigitsCore : Nat → Nat → List Char → List Char
  | 0, _, acc => acc
  | fuel + 1, n, acc =>
    if n = 0 then acc
    else natDigitsCore fuel (n / 10) (digitChar (n % 10) :: acc)

/-- The decimal digits of a natural number (at least one digit). -/
def natDigits (n : Nat) : List Char :=
  if n = 0 then ['0'] else natDigitsCore n n []

/-- One step of reading a digit string left to right. -/
def digitStep (a : Nat) (c : Char) : Nat := a * 10 + digitVal c

/-- Read a digit string as a natural number (most significant first). -/
def digitsToNat (ds : List Char) : Nat :=
  ds.foldl digitStep 0

/-- Left-pad a digit string with zeros to a given width. -/
def padZeros (w : Nat) (ds : List Char) : List Char :=
  List.replicate (w - ds.length) '0' ++ ds

/-! ## Data model -/

/-- Modelled from the spec: an exact decimal quantity, `mantissa / 10 ^ exp`.
The engine's decimal values (amounts, balances) are embedded this way so that
rendering and re-reading them is lossless. -/
structure Dec where
  mantissa : Int
  exp : Nat
deriving Repr, DecidableEq

/-- The rational value of a decimal quantity. -/
def Dec.toRat (d : Dec) : Rat := (d.mantissa : Rat) / (10 : Rat) ^ d.exp

/-- The mantissa of a decimal quantity rescaled to a (larger) exponent. -/
def Dec.scaleTo (d : Dec) (e : Nat) : Int := d.mantissa * (10 : Int) ^ (e - d.exp)

/-- Exact addition of decimal quantities. -/
def Dec.add (a b : Dec) : Dec :=
  let e := max a.exp b.exp
  ⟨a.scaleTo e + b.scaleTo e, e⟩

/-- Exact subtraction of decimal quantities. -/
def Dec.sub (a b : Dec) : Dec :=
  let e := max a.exp b.exp
  ⟨a.scaleTo e - b.scaleTo e, e⟩

/-- Absolute value of a decimal quantity. -/
def Dec.absD (d : Dec) : Dec := ⟨(d.mantissa.natAbs : Int), d.exp⟩

/-- Exact order comparison of decimal quantities. -/
def Dec.leD (a b : Dec) : Bool :=
  let e := max a.exp b.exp
  a.scaleTo e ≤ b.scaleTo e

/-- Modelled from the spec: the four field kinds located by the tokenizer. -/
inductive FieldKind
  | date
  | description
  | amount
  | balance
deriving Repr, DecidableEq

/-- Modelled from the spec: the kind payload of `MissingField`, which besides
the four field kinds needs an `All` kind for the empty-input fast failure. -/
inductive MissingKind
  | date
  | description
  | amount
  | balance
  | all
deriving Repr, DecidableEq

/-- Modelled from the spec: how the sign of an amount was determined. -/
inductive SignProvenance
  | explicitSign
  | marker
  | parenthesized
  | inferred
deriving Repr, DecidableEq

/-- Modelled from the spec: a signed decimal value with sign provenance. -/
structure ParsedAmount where
  value : Dec
  provenance : SignProvenance
deriving Repr, DecidableEq

/-- Modelled from the spec: a calendar date, no time-of-day component. -/
structure ParsedDate where
  year : Nat
  month : Nat
  day : Nat
deriving Repr, DecidableEq

/-- Modelled from the spec: the extraction error taxonomy.  Balance-check
payloads are exact decimals; confidence scores are in exact hundredths (an
integer `c` denotes the confidence `c / 100`). -/
inductive ExtractionError
  | missingField (kind : MissingKind)
  | ambiguousField (kind : FieldKind) (candidates : List Text)
  | unparseableDate (t : Text)
  | unparseableAmount (t : Text)
  | balanceMismatch (expected actual delta : Dec)
  | lowConfidence (score threshold : Int)
deriving Repr, DecidableEq

/-- Modelled from the spec: the normalized transaction record.  The
confidence score in `[0,1]` is embedded in exact hundredths: the integer
`confidence` denotes the score `confidence / 100` (all the spec's penalty
constants are exact multiples of `0.05`, so this loses nothing). -/
structure TransactionRecord where
  date : ParsedDate
  description : Text
  amount : ParsedAmount
  balanceAfter : Option Dec
  confidence : Int
deriving Repr, DecidableEq

/-! ## Small text helpers used by the tokenizer and parsers -/

/-- Boolean equality of texts (own definition, so proofs can unfold it). -/
def eqT : Text → Text → Bool
  | [], [] => true
  | a :: as, b :: bs => a == b && eqT as bs
  | _, _ => false

/-- Association lookup keyed by texts. -/
def lookupT {α : Type} (k : Text) : List (Text × α) → Option α
  | [] => none
  | (w, v) :: rest => if eqT k w then some v else lookupT k rest

/-- Membership of a text in a list of texts. -/
def memT (x : Text) : List Text → Bool
  | [] => false
  | w :: ws => eqT x w || memT x ws

/-! ## Tokenizer / field locator -/

/-- Modelled from the spec: the candidate spans located for each field kind
(the value side of labeled lines, or pattern-inferred text). -/
structure Spans where
  date : Option Text
  description : Option Text
  amount : Option Text
  balance : Option Text
deriving Repr, DecidableEq

/-- The empty span assignment. -/
def emptySpans : Spans := ⟨none, none, none, none⟩

/-- Field selection on a span assignment. -/
def Spans.get (s : Spans) : FieldKind → Option Text
  | .date => s.date
  | .description => s.description
  | .amount => s.amount
  | .balance => s.balance

/-- Update one field of a span assignment. -/
def Spans.set (s : Spans) : FieldKind → Text → Spans
  | .date, v => { s with date := some v }
  | .description, v => { s with description := some v }
  | .amount, v => { s with amount := some v }
  | .balance, v => { s with balance := some v }

/-- Modelled from the spec: the case-insensitive label synonym table
(`Date`, `Description`/`Narration`, `Amount`, `Balance`/`Balance after
transaction`); unknown labels map to nothing. -/
def labelOfText (l : Text) : Option FieldKind :=
  let n := lowerT (normalizeDesc l)
  if eqT n "date".data then some .date
  else if eqT n "description".data || eqT n "narration".data then some .description
  else if eqT n "amount".data then some .amount
  else if eqT n "balance".data || eqT n "balance after transaction".data then
    some .balance
  else none

/-- Split a line at its first colon, if any. -/
def splitAtColon : Text → Option (Text × Text)
  | [] => none
  | c :: rest =>
    if c == ':' then some ([], rest)
    else
      match splitAtColon rest with
      | none => none
      | some (a, b) => some (c :: a, b)

/-- Modelled from the spec: interpret a line as a labeled field, returning
its kind and the raw value after the colon. -/
def lineField (line : Text) : Option (FieldKind × Text) :=
  match splitAtColon line with
  | none => none
  | some (l, v) =>
    match labelOfText l with
    | some k => some (k, v)
    | none => none

/-- Modelled from the spec: scan the labeled lines in order; a later line for
the same field kind overwrites an earlier one (last occurrence wins). -/
def labeledScan (lines : List Text) : Spans :=
  lines.foldl
    (fun s line =>
      match lineField line with
      | some kv => s.set kv.1 kv.2
      | none => s)
    emptySpans

/-- The value of the last labeled line of a given kind, if any (reference
formulation of the last-occurrence-wins rule, searching from the end). -/
def lastLabeled (lines : List Text) (k : FieldKind) : Option Text :=
  match lines with
  | [] => none
  | line :: rest =>
    match lastLabeled rest k with
    | some v => some v
    | none =>
      match lineField line with
      | some kv => if kv.1 = k then some kv.2 else none
      | none => none

/-- Join texts with single spaces. -/
def joinSpaces : List Text → Text
  | [] => []
  | [w] => w
  | w :: ws => w ++ ' ' :: joinSpaces ws

/-! ## Date parser -/

/-- Gregorian leap-year rule. -/
def leapYear (y : Nat) : Bool :=
  y % 4 == 0 && (y % 100 != 0 || y % 400 == 0)

/-- Days in a month of a given year. -/
def daysInMonth (y m : Nat) : Nat :=
  if m = 2 then (if leapYear y then 29 else 28)
  else if m = 4 ∨ m = 6 ∨ m = 9 ∨ m = 11 then 30
  else 31

/-- Modelled from the spec: lower bound of the plausible year window. -/
def yearLo : Nat := 1970

/-- Modelled from the spec: upper bound of the plausible year window. -/
def yearHi : Nat := 2100

/-- Modelled from the spec: a date is valid when the month is in 1–12, the
day is valid for that month/year, and the year is in the plausible window. -/
def validDate (y m d : Nat) : Bool :=
  yearLo ≤ y && y ≤ yearHi && 1 ≤ m && m ≤ 12 && 1 ≤ d && d ≤ daysInMonth y m

/-- A nonempty all-digit text. -/
def allDigits (t : Text) : Bool :=
  !t.isEmpty && t.all isDigit

/-- Month-name table (three-letter abbreviations and full names). -/
def monthTable : List (Text × Nat) :=
  [("jan".data, 1), ("feb".data, 2), ("mar".data, 3), ("apr".data, 4),
   ("may".data, 5), ("jun".data, 6), ("jul".data, 7), ("aug".data, 8),
   ("sep".data, 9), ("oct".data, 10), ("nov".data, 11), ("dec".data, 12),
   ("january".data, 1), ("february".data, 2), ("march".data, 3),
   ("april".data, 4), ("june".data, 6), ("july".data, 7),
   ("august".data, 8), ("september".data, 9), ("october".data, 10),
   ("november".data, 11), ("december".data, 12)]

/-- Modelled from the spec: the `D Mon YYYY` format (unambiguous). -/
def parseDMonY (s : Text) : Option (ParsedDate × Bool) :=
  match wsTokens s with
  | [dt, mt, yt] =>
    if allDigits dt && allDigits yt then
      match lookupT (lowerT mt) monthTable with
      | some m =>
        let d := digitsToNat dt
        let y := digitsToNat yt
        if validDate y m d then some (⟨y, m, d⟩, false) else none
      | none => none
    else none
  | _ => none

/-- Modelled from the spec: the `YYYY-MM-DD` format (unambiguous). -/
def parseISO (s : Text) : Option (ParsedDate × Bool) :=
  match splitOnC '-' s with
  | [yt, mt, dt] =>
    if allDigits yt && allDigits mt && allDigits dt then
      let y := digitsToNat yt
      let m := digitsToNat mt
      let d := digitsToNat dt
      if validDate y m d then some (⟨y, m, d⟩, false) else none
    else none
  | _ => none

/-- Modelled from the spec: disambiguation of `DD/MM/YYYY` vs `MM/DD/YYYY`.
A first number above 12 forces `DD/MM`; if both numbers are at most 12 the
`DD/MM` reading is preferred and the result is flagged ambiguous; otherwise
only the `MM/DD` reading can be meant. -/
def slashResolve (a b y : Nat) : Option (ParsedDate × Bool) :=
  if 12 < a then
    if validDate y b a then some (⟨y, b, a⟩, false) else none
  else if b ≤ 12 then
    if validDate y b a then some (⟨y, b, a⟩, true) else none
  else
    if validDate y a b then some (⟨y, a, b⟩, false) else none

/-- Modelled from the spec: the two slash-separated formats. -/
def parseSlash (s : Text) : Option (ParsedDate × Bool) :=
  match splitOnC '/' s with
  | [at_, bt, yt] =>
    if allDigits at_ && allDigits bt && allDigits yt then
      slashResolve (digitsToNat at_) (digitsToNat bt) (digitsToNat yt)
    else none
  | _ => none

/-- Modelled from the spec: the date parser tries the formats in the fixed
priority order `D Mon YYYY`, `YYYY-MM-DD`, then the slash formats.  The
boolean records whether the ambiguous `DD/MM`-vs-`MM/DD` fallback decided
the reading. -/
def parseDate (t : Text) : Option (ParsedDate × Bool) :=
  let s := trim t
  match parseDMonY s with
  | some r => some r
  | none =>
    match parseISO s with
    | some r => some r
    | none => parseSlash s

/-! ## Amount parser -/

/-- Modelled from the spec: Dr/debit markers map to negative, Cr/credit to
positive (`true` means negative). -/
def markerTable : List (Text × Bool) :=
  [("dr".data, true), ("debit".data, true),
   ("cr".data, false), ("credit".data, false)]

/-- Currency code words stripped before numeric parsing. -/
def currencyWords : List Text :=
  ["inr".data, "usd".data, "eur".data, "gbp".data, "rs".data, "rs.".data]

/-- Currency symbol characters stripped before numeric parsing. -/
def isCurrencySym (c : Char) : Bool :=
  c == '₹' || c == '$' || c == '€' || c == '£'

/-- Is a token a currency code word (case-insensitive)? -/
def isCurrencyTok (tk : Text) : Bool :=
  memT (lowerT tk) currencyWords

/-- Strip a surrounding parenthesis pair, reporting whether one was found. -/
def stripParens (s : Text) : Text × Bool :=
  match s with
  | [] => ([], false)
  | c :: rest =>
    if c = '(' then
      match rest.reverse with
      | [] => (c :: rest, false)
      | d :: rinit =>
        if d = ')' then (trim rinit.reverse, true) else (c :: rest, false)
    else (c :: rest, false)

/-- Strip a leading or trailing Dr/Cr/debit/credit token, reporting the
marker's sign meaning (`true` = negative) when found. -/
def stripMarkerToks (toks : List Text) : Option Bool × List Text :=
  match toks with
  | [] => (none, [])
  | t0 :: rest =>
    match lookupT (lowerT t0) markerTable with
    | some n => (some n, rest)
    | none =>
      match toks.reverse with
      | [] => (none, toks)
      | tl :: rinit =>
        match lookupT (lowerT tl) markerTable with
        | some n => (some n, rinit.reverse)
        | none => (none, toks)

/-- Strip an explicit leading `-`/`+`, reporting it (`true` = negative). -/
def stripExplicitSign : Text → Option Bool × Text
  | [] => (none, [])
  | c :: r =>
    if c = '-' then (some true, r)
    else if c = '+' then (some false, r)
    else (none, c :: r)

/-- Modelled from the spec: sign resolution precedence — explicit sign, then
Dr/Cr marker, then parenthesization, else inferred positive. -/
def resolveSign (expl : Option Bool) (marker : Option Bool) (parens : Bool) :
    Bool × SignProvenance :=
  match expl with
  | some n => (n, .explicitSign)
  | none =>
    match marker with
    | some n => (n, .marker)
    | none =>
      if parens then (true, .parenthesized) else (false, .inferred)

/-- Parse an unsigned decimal literal `digits[.digits]` into a `Dec`. -/
def parseDecLit (t : Text) : Option Dec :=
  match splitOnC '.' t with
  | [ip] =>
    if allDigits ip then some ⟨(digitsToNat ip : Nat), 0⟩ else none
  | [ip, fp] =>
    if allDigits ip && allDigits fp then
      some ⟨((digitsToNat ip * 10 ^ fp.length + digitsToNat fp : Nat) : Int),
            fp.length⟩
    else none
  | _ => none

/-- Apply a resolved sign to an unsigned decimal literal. -/
def mkAmount (d : Dec) (rs : Bool × SignProvenance) : ParsedAmount :=
  ⟨⟨if rs.1 then -d.mantissa else d.mantissa, d.exp⟩, rs.2⟩

/-- Modelled from the spec: the amount parser — trim, handle parentheses,
strip Dr/Cr marker tokens and currency code words, detect an explicit leading
sign, strip currency symbols and thousands separators, parse the decimal
literal, then resolve the sign by the fixed precedence. -/
def parseAmount (t : Text) : Option ParsedAmount :=
  let s := trim t
  let pr := stripParens s
  let toks := wsTokens pr.1
  let mk := stripMarkerToks toks
  let toks2 := mk.2.filter (fun tk => !isCurrencyTok tk)
  let body := toks2.foldr (fun a b => a ++ b) []
  let es := stripExplicitSign body
  let body2 := es.2.filter (fun c => !isCurrencySym c && c != ',')
  (parseDecLit body2).map (fun d => mkAmount d (resolveSign es.1 mk.1 pr.2))

/-! ## Unlabeled inference and the tokenizer -/

/-- Modelled from the spec: pattern-based inference for fields without a
labeled line — a date-shaped token, a currency-shaped token, the remaining
free text as description.  Fields already located via labels are kept. -/
def inferSpans (text : Text) (s : Spans) : Spans :=
  let toks := wsTokens text
  let d := s.date.orElse (fun _ => toks.find? (fun tk => (parseDate tk).isSome))
  let a := s.amount.orElse (fun _ =>
    (toks.filter (fun tk => (parseDate tk).isNone)).find?
      (fun tk => (parseAmount tk).isSome))
  let rest := toks.filter
    (fun tk => (parseDate tk).isNone && (parseAmount tk).isNone)
  let de := s.description.orElse
    (fun _ => if rest.isEmpty then none else some (joinSpaces rest))
  ⟨d, de, a, s.balance⟩

/-- Modelled from the spec: the tokenizer — labeled lines first, then
pattern inference only for the field kinds no labeled line matched. -/
def tokenize (text : Text) : Spans :=
  inferSpans text (labeledScan (splitLines text))

/-! ## Record assembler and validator -/

/-- Modelled from the spec: penalty (in hundredths) for an inferred
(non-explicit) amount sign — 0.3. -/
def signPenalty : Int := 30

/-- Modelled from the spec: penalty (in hundredths) for a missing balance
field — 0.1. -/
def balancePenalty : Int := 10

/-- Modelled from the spec: penalty (in hundredths) for a date read via the
ambiguous `DD/MM`-vs-`MM/DD` fallback — 0.15. -/
def datePenalty : Int := 15

/-- Modelled from the spec: default confidence threshold — 0.5, in
hundredths. -/
def defaultThreshold : Int := 50

/-- Modelled from the spec: fixed tolerance of the balance arithmetic check
(one smallest currency unit, 0.01). -/
def epsilon : Dec := ⟨1, 2⟩

/-- Clamp an integer from below at zero (the confidence floor). -/
def floor0 (x : Int) : Int := if x < 0 then 0 else x

/-- Modelled from the spec: assemble the record; confidence starts at 1.0
(100 hundredths), is reduced by the triggered fixed penalties additively,
and floors at 0. -/
def assemble (d : ParsedDate) (ambig : Bool) (desc : Text) (a : ParsedAmount)
    (bal : Option Dec) : TransactionRecord :=
  let pen :=
    (if a.provenance = .inferred then signPenalty else 0) +
    (if bal.isNone then balancePenalty else 0) +
    (if ambig then datePenalty else 0)
  ⟨d, desc, a, bal, floor0 (100 - pen)⟩

/-- Modelled from the spec: the confidence gate — below the threshold the
record is replaced by a `LowConfidence` diagnostic. -/
def gate (r : TransactionRecord) : Except ExtractionError TransactionRecord :=
  if r.confidence < defaultThreshold then
    .error (.lowConfidence r.confidence defaultThreshold)
  else .ok r

/-- Modelled from the spec: the validator — the arithmetic balance check
(only when the caller supplied a prior balance and the record carries a
balance), then the confidence gate. -/
def finalize (r : TransactionRecord) (prior : Option Dec) :
    Except ExtractionError TransactionRecord :=
  match prior, r.balanceAfter with
  | some pb, some bal =>
    let expected := Dec.add pb r.amount.value
    let delta := Dec.absD (Dec.sub expected bal)
    if Dec.leD delta epsilon then gate r
    else .error (.balanceMismatch expected bal delta)
  | _, _ => gate r

/-! ## Extraction API -/

instance {α β : Type} [DecidableEq α] [DecidableEq β] :
    DecidableEq (Except α β) := fun x y =>
  match x, y with
  | .error a, .error b =>
    if h : a = b then isTrue (by rw [h]) else isFalse (by simp [h])
  | .ok a, .ok b =>
    if h : a = b then isTrue (by rw [h]) else isFalse (by simp [h])
  | .error _, .ok _ => isFalse (by simp)
  | .ok _, .error _ => isFalse (by simp)

/-- Error-propagating sequencing for the extraction pipeline. -/
def andThen {α β : Type} (x : Except ExtractionError α)
    (f : α → Except ExtractionError β) : Except ExtractionError β :=
  match x with
  | .error e => .error e
  | .ok v => f v

/-- Turn an optional value into a pipeline step with the given error. -/
def require {α : Type} (o : Option α) (e : ExtractionError) :
    Except ExtractionError α :=
  match o with
  | some x => .ok x
  | none => .error e

/-- Modelled from the spec: a normalized description must be nonempty. -/
def requireDesc (d : Text) : Except ExtractionError Text :=
  if d.isEmpty then .error (.missingField .description) else .ok d

/-- Modelled from the spec: the amount must parse and be non-zero (a
zero-amount transaction is rejected as almost certainly a parse failure). -/
def requireAmt (orig : Text) (o : Option ParsedAmount) :
    Except ExtractionError ParsedAmount :=
  match o with
  | none => .error (.unparseableAmount orig)
  | some a =>
    if a.value.mantissa = 0 then .error (.unparseableAmount orig) else .ok a

/-- Modelled from the spec: the balance field is optional, but a present
balance span must parse. -/
def requireBal (b : Option Text) : Except ExtractionError (Option Dec) :=
  match b with
  | none => .ok none
  | some bspan =>
    match parseAmount bspan with
    | none => .error (.unparseableAmount (trim bspan))
    | some pb => .ok (some pb.value)

/-- Modelled from the spec: the single entry point
`extract(text, priorBalance?)`.  Null/empty (all-whitespace) text fails fast
with `MissingField(All)`; otherwise tokenize, parse each field, assemble the
record with its confidence, and validate. -/
def extract (text : Text) (prior : Option Dec) :
    Except ExtractionError TransactionRecord :=
  if (trim text).isEmpty then .error (.missingField .all) else
  let s := tokenize text
  andThen (require s.date (.missingField .date)) (fun dspan =>
  andThen (require s.description (.missingField .description)) (fun descspan =>
  andThen (require s.amount (.missingField .amount)) (fun aspan =>
  andThen (require (parseDate dspan) (.unparseableDate (trim dspan))) (fun da =>
  andThen (requireDesc (normalizeDesc descspan)) (fun desc =>
  andThen (requireAmt (trim aspan) (parseAmount aspan)) (fun a =>
  andThen (requireBal s.balance) (fun bal =>
  finalize (assemble da.1 da.2 desc a bal) prior)))))))

/-! ## Control-flow model of `src/backend/test-routes.py`

The test script spawns the dev server with `subprocess.Popen`, runs six HTTP
checks inside a `try:` block, and calls `proc.terminate()` then `proc.wait()`
in the attached `finally:` block. -/

/-- Observable events on the spawned server subprocess. -/
inductive ProcEvent
  | popen
  | terminate
  | wait
deriving Repr, DecidableEq

/-- Statements of the test script, abstracted to their effect on the
subprocess: spawning it, a step of the HTTP-request block (a request, print,
or sleep — no subprocess effect), and the two cleanup calls. -/
inductive PyStmt
  | popen
  | httpStep
  | terminateStmt
  | waitStmt
deriving Repr, DecidableEq

/-- The subprocess events a single statement emits. -/
def stepEvents : PyStmt → List ProcEvent
  | .popen => [.popen]
  | .httpStep => []
  | .terminateStmt => [.terminate]
  | .waitStmt => [.wait]

/-- Run a straight-line statement list, appending subprocess events to the
trace.  `raiseAt = some i` models the `i`-th statement raising an exception,
which aborts the remainder of the list; the boolean reports whether an
exception escaped. -/
def runStmts : List PyStmt → Option Nat → List ProcEvent → List ProcEvent × Bool
  | [], _, tr => (tr, false)
  | _ :: _, some 0, tr => (tr, true)
  | s :: rest, some (n + 1), tr => runStmts rest (some n) (tr ++ stepEvents s)
  | s :: rest, none, tr => runStmts rest none (tr ++ stepEvents s)

/-- The `try:` block of the script: the six HTTP endpoint checks, each a few
request/print statements (none touches the subprocess). -/
def httpBlock : List PyStmt := List.replicate 12 .httpStep

/-- Control flow of `src/backend/test-routes.py`: spawn the server, run the
HTTP block under `try`/`finally`, and in the `finally` part call
`proc.terminate()` then `proc.wait()` whether or not the body raised; any
exception of the body escapes afterwards. -/
def testRoutesScript (raiseAt : Option Nat) : List ProcEvent × Bool :=
  let start := runStmts [PyStmt.popen] none []
  let body := runStmts httpBlock raiseAt start.1
  let fin := runStmts [PyStmt.terminateStmt, PyStmt.waitStmt] none body.1
  (fin.1, body.2)

/-! ## Concrete inputs from the spec and the test script -/

/-- The transaction text posted by the test script (`tx_data` in
`src/backend/test-routes.py`) and used throughout the spec's examples. -/
def starbucksText : Text :=
  "Date: 11 Dec 2025\nDescription: STARBUCKS COFFEE MUMBAI\nAmount: -420.00\nBalance after transaction: 18420.50".data

/-- The record the spec expects for the Starbucks example (confidence in
hundredths). -/
def starbucksRecord : TransactionRecord :=
  ⟨⟨2025, 12, 11⟩, "STARBUCKS COFFEE MUMBAI".data,
   ⟨⟨-42000, 2⟩, .explicitSign⟩, some ⟨1842050, 2⟩, 100⟩

/-- A slash-separated date text built from numeric components, used to state
the disambiguation rules over all component values. -/
def slashText (a b y : Nat) : Text :=
  natDigits a ++ '/' :: (natDigits b ++ '/' :: natDigits y)

/-! ## Canonical rendering of a record (for the round-trip property) -/

/-- ISO-8601 rendering of a date (`YYYY-MM-DD`, zero-padded). -/
def renderDate (d : ParsedDate) : Text :=
  natDigits d.year ++ '-' ::
    (padZeros 2 (natDigits d.month) ++ '-' :: padZeros 2 (natDigits d.day))

/-- The unsigned decimal digits of a quantity's magnitude. -/
def renderDecMag (d : Dec) : Text :=
  let n := d.mantissa.natAbs
  if d.exp = 0 then natDigits n
  else natDigits (n / 10 ^ d.exp) ++ '.' ::
    padZeros d.exp (natDigits (n % 10 ^ d.exp))

/-- Render a decimal with an explicit sign (spec: amounts are rendered as
decimal strings with explicit sign). -/
def renderDecSigned (d : Dec) : Text :=
  (if d.mantissa < 0 then '-' else '+') :: renderDecMag d

/-- Render a decimal with a sign only when negative (balances). -/
def renderDecPlain (d : Dec) : Text :=
  if d.mantissa < 0 then '-' :: renderDecMag d else renderDecMag d

/-- Modelled from the spec: render a record back to the canonical labeled
text format. -/
def render (r : TransactionRecord) : Text :=
  "Date: ".data ++ renderDate r.date ++ '\n' ::
  ("Description: ".data ++ r.description ++ '\n' ::
  ("Amount: ".data ++ renderDecSigned r.amount.value ++
    (match r.balanceAfter with
     | none => []
     | some b => '\n' :: ("Balance: ".data ++ renderDecPlain b))))

/-- Last-character side condition used to show trimming is a no-op. -/
def lastNotWS (t : Text) : Prop :=
  ∀ c : Char, t.getLast? = some c → isWS c = false

/-- Head-character side condition used to show trimming is a no-op. -/
def headNotWS (t : Text) : Prop :=
  ∀ c : Char, t.head? = some c → isWS c = false

/-- Well-formedness of collapsed text: every whitespace character is a
single space not followed by further whitespace. -/
def collapsedOK : Text → Bool
  | [] => true
  | [c] => !isWS c || c == ' '
  | c :: d :: rest => (!isWS c || (c == ' ' && !isWS d)) && collapsedOK (d :: rest)

/-! ## Digit-string lemmas -/

theorem natDigitsCore_acc (fuel : Nat) :
    ∀ (n : Nat) (acc : List Char),
      natDigitsCore fuel n acc = natDigitsCore fuel n [] ++ acc := by
  induction fuel with
  | zero => intro n acc; rfl
  | succ fuel ih =>
    intro n acc
    by_cases h : n = 0
    · simp [natDigitsCore, h]
    · simp only [natDigitsCore, if_neg h]
      rw [ih (n / 10) (digitChar (n % 10) :: acc),
          ih (n / 10) [digitChar (n % 10)]]
      simp

theorem isDigit_digitChar : ∀ m : Nat, m < 10 → isDigit (digitChar m) = true := by
  decide

theorem natDigitsCore_digits (fuel : Nat) :
    ∀ (n : Nat) (acc : List Char), (∀ c ∈ acc, isDigit c = true) →
      ∀ c ∈ natDigitsCore fuel n acc, isDigit c = true := by
  induction fuel with
  | zero => intro n acc hacc; exact hacc
  | succ fuel ih =>
    intro n acc hacc
    by_cases h : n = 0
    · simpa [natDigitsCore, h] using hacc
    · simp only [natDigitsCore, if_neg h]
      refine ih (n / 10) _ ?_
      intro c hc
      rcases List.mem_cons.1 hc with hc | hc
      · subst hc; exact isDigit_digitChar _ (Nat.mod_lt _ (by omega))
      · exact hacc c hc

/-- Every character of a rendered natural number is a digit. -/
theorem natDigits_digits (n : Nat) : ∀ c ∈ natDigits n, isDigit c = true := by
  unfold natDigits
  by_cases h : n = 0
  · simp [h]; decide
  · simpa [h] using natDigitsCore_digits n n [] (by simp)

/-- A rendered natural number is nonempty. -/
theorem natDigits_ne_nil (n : Nat) : natDigits n ≠ [] := by
  unfold natDigits
  by_cases h : n = 0
  · simp [h]
  · simp only [if_neg h]
    match n, h with
    | n + 1, _ =>
      simp only [natDigitsCore, if_neg (Nat.succ_ne_zero n)]
      rw [natDigitsCore_acc]
      simp

theorem digitVal_digitChar : ∀ m : Nat, m < 10 → digitVal (digitChar m) = m := by
  decide

theorem natDigitsCore_zero (fuel : Nat) (acc : List Char) :
    natDigitsCore fuel 0 acc = acc := by
  cases fuel <;> rfl

theorem natDigitsCore_fold :
    ∀ (n fuel : Nat), n ≤ fuel → ∀ A : Nat,
      (natDigitsCore fuel n []).foldl digitStep A =
        if n = 0 then A
        else A * 10 ^ (natDigitsCore fuel n []).length + n := by
  intro n
  induction n using Nat.strong_induction_on with
  | _ n ih =>
    intro fuel hfuel A
    by_cases h : n = 0
    · subst h
      rw [natDigitsCore_zero]
      simp
    · obtain ⟨m, rfl⟩ : ∃ m, fuel = m + 1 := ⟨fuel - 1, by omega⟩
      have hdiv : n / 10 < n := Nat.div_lt_self (by omega) (by omega)
      have hdle : n / 10 ≤ m := by omega
      have hmod : n % 10 < 10 := Nat.mod_lt _ (by omega)
      have hstep : natDigitsCore (m + 1) n [] =
          natDigitsCore m (n / 10) [] ++ [digitChar (n % 10)] := by
        simp only [natDigitsCore, if_neg h]
        exact natDigitsCore_acc m (n / 10) [digitChar (n % 10)]
      rw [hstep, List.foldl_append, ih (n / 10) hdiv m hdle A]
      simp only [List.foldl_cons, List.foldl_nil, digitStep,
        digitVal_digitChar (n % 10) hmod, List.length_append,
        List.length_cons, List.length_nil, Nat.zero_add, if_neg h]
      by_cases h10 : n / 10 = 0
      · rw [if_pos h10, h10, natDigitsCore_zero]
        have hn10 : n < 10 := by omega
        rw [Nat.mod_eq_of_lt hn10]
        simp
      · rw [if_neg h10]
        have hrearrange :
            (A * 10 ^ (natDigitsCore m (n / 10) []).length + n / 10) * 10 +
              n % 10 =
            A * (10 ^ (natDigitsCore m (n / 10) []).length * 10) +
              (n / 10 * 10 + n % 10) := by ring
        rw [hrearrange]
        have hdm : n / 10 * 10 + n % 10 = n := by omega
        rw [hdm, ← pow_succ]

/-- Reading back a rendered natural number recovers it. -/
theorem digitsToNat_natDigits (n : Nat) : digitsToNat (natDigits n) = n := by
  unfold natDigits digitsToNat
  by_cases h : n = 0
  · simp [h]; decide
  · simp only [if_neg h]
    rw [natDigitsCore_fold n n le_rfl 0]
    simp [h]

/-- A rendered natural number passes the `allDigits` check. -/
theorem allDigits_natDigits (n : Nat) : allDigits (natDigits n) = true := by
  unfold allDigits
  rw [Bool.and_eq_true]
  constructor
  · simp [List.isEmpty_iff, natDigits_ne_nil n]
  · rw [List.all_eq_true]
    intro c hc
    exact natDigits_digits n c hc

/-! ## Split and trim lemmas -/

theorem beq_eq_false_of_digit {c x : Char} (hc : isDigit c = true)
    (hx : isDigit x = false) : (c == x) = false := by
  by_contra hne
  have : c = x := by
    have := Bool.not_eq_false (c == x) ▸ hne
    exact eq_of_beq (by simpa using this)
  subst this
  rw [hc] at hx
  cases hx

theorem splitOnC_sep_free (sep : Char) :
    ∀ t : Text, (∀ c ∈ t, (c == sep) = false) → splitOnC sep t = [t] := by
  intro t
  induction t with
  | nil => intro _; rfl
  | cons c rest ih =>
    intro h
    have hc : (c == sep) = false := h c (by simp)
    simp only [splitOnC, hc, Bool.false_eq_true, if_false]
    rw [ih (fun x hx => h x (by simp [hx]))]

theorem splitOnC_append (sep : Char) :
    ∀ (a b : Text), (∀ c ∈ a, (c == sep) = false) →
      splitOnC sep (a ++ sep :: b) = a :: splitOnC sep b := by
  intro a
  induction a with
  | nil =>
    intro b _
    simp [splitOnC]
  | cons c a' ih =>
    intro b h
    have hc : (c == sep) = false := h c (by simp)
    simp only [List.cons_append, splitOnC, hc, Bool.false_eq_true, if_false,
      List.append_eq]
    rw [ih b (fun x hx => h x (by simp [hx]))]

theorem splitWSAll_no_ws :
    ∀ t : Text, (∀ c ∈ t, isWS c = false) → splitWSAll t = [t] := by
  intro t
  induction t with
  | nil => intro _; rfl
  | cons c rest ih =>
    intro h
    have hc : isWS c = false := h c (by simp)
    simp only [splitWSAll, hc, Bool.false_eq_true, if_false]
    rw [ih (fun x hx => h x (by simp [hx]))]

/-- A nonempty whitespace-free text is its own single token. -/
theorem wsTokens_single (t : Text) (hne : t ≠ [])
    (h : ∀ c ∈ t, isWS c = false) : wsTokens t = [t] := by
  unfold wsTokens
  rw [splitWSAll_no_ws t h]
  simp [List.isEmpty_iff, hne]

theorem trimLeft_fixed (t : Text) (h : ∀ c ∈ t, isWS c = false) :
    trimLeft t = t := by
  cases t with
  | nil => rfl
  | cons c rest =>
    unfold trimLeft
    rw [List.dropWhile_cons_of_neg]
    simp [h c (by simp)]

theorem trimRight_fixed (t : Text) (h : ∀ c ∈ t, isWS c = false) :
    trimRight t = t := by
  unfold trimRight
  cases ht : t.reverse with
  | nil =>
    have : t = [] := by simpa using congrArg List.reverse ht
    simp [this]
  | cons c rest =>
    have hc : c ∈ t := by
      have : c ∈ t.reverse := by rw [ht]; simp
      simpa using this
    rw [List.dropWhile_cons_of_neg (by simp [h c hc])]
    rw [← ht, List.reverse_reverse]

/-- Trimming a whitespace-free text leaves it unchanged. -/
theorem trim_fixed (t : Text) (h : ∀ c ∈ t, isWS c = false) : trim t = t := by
  unfold trim
  rw [trimLeft_fixed t h, trimRight_fixed t h]

/-! ## Character-class consequences -/

theorem not_ws_of_digit {c : Char} (h : isDigit c = true) : isWS c = false := by
  unfold isWS
  rw [beq_eq_false_of_digit h (by decide), beq_eq_false_of_digit h (by decide),
    beq_eq_false_of_digit h (by decide), beq_eq_false_of_digit h (by decide)]
  rfl

theorem slashText_no_ws (a b y : Nat) :
    ∀ c ∈ slashText a b y, isWS c = false := by
  intro c hc
  unfold slashText at hc
  rcases List.mem_append.1 hc with hc | hc
  · exact not_ws_of_digit (natDigits_digits a c hc)
  · rcases List.mem_cons.1 hc with hc | hc
    · subst hc; decide
    · rcases List.mem_append.1 hc with hc | hc
      · exact not_ws_of_digit (natDigits_digits b c hc)
      · rcases List.mem_cons.1 hc with hc | hc
        · subst hc; decide
        · exact not_ws_of_digit (natDigits_digits y c hc)

theorem slashText_no_dash (a b y : Nat) :
    ∀ c ∈ slashText a b y, (c == '-') = false := by
  intro c hc
  unfold slashText at hc
  rcases List.mem_append.1 hc with hc | hc
  · exact beq_eq_false_of_digit (natDigits_digits a c hc) (by decide)
  · rcases List.mem_cons.1 hc with hc | hc
    · subst hc; decide
    · rcases List.mem_append.1 hc with hc | hc
      · exact beq_eq_false_of_digit (natDigits_digits b c hc) (by decide)
      · rcases List.mem_cons.1 hc with hc | hc
        · subst hc; decide
        · exact beq_eq_false_of_digit (natDigits_digits y c hc)
            (by decide)

theorem slashText_ne_nil (a b y : Nat) : slashText a b y ≠ [] := by
  unfold slashText
  intro h
  exact natDigits_ne_nil a (List.append_eq_nil.1 h).1

/-- On a slash-separated numeric date text, the date parser reaches the
slash formats and applies the documented disambiguation. -/
theorem parseDate_slashText (a b y : Nat) :
    parseDate (slashText a b y) = slashResolve a b y := by
  have htrim : trim (slashText a b y) = slashText a b y :=
    trim_fixed _ (slashText_no_ws a b y)
  have hdmony : parseDMonY (slashText a b y) = none := by
    unfold parseDMonY
    rw [wsTokens_single _ (slashText_ne_nil a b y) (slashText_no_ws a b y)]
  have hiso : parseISO (slashText a b y) = none := by
    unfold parseISO
    rw [splitOnC_sep_free '-' _ (slashText_no_dash a b y)]
  have hdigit_slash : ∀ n : Nat, ∀ c ∈ natDigits n, (c == '/') = false := by
    intro n c hc
    exact beq_eq_false_of_digit (natDigits_digits n c hc) (by decide)
  have hsplit : splitOnC '/' (slashText a b y) =
      [natDigits a, natDigits b, natDigits y] := by
    unfold slashText
    rw [splitOnC_append '/' (natDigits a) _ (hdigit_slash a),
      splitOnC_append '/' (natDigits b) _ (hdigit_slash b),
      splitOnC_sep_free '/' _ (hdigit_slash y)]
  have hslash : parseSlash (slashText a b y) = slashResolve a b y := by
    unfold parseSlash
    rw [hsplit]
    simp only [allDigits_natDigits, Bool.and_self, if_true,
      digitsToNat_natDigits]
  simp only [parseDate, htrim, hdmony, hiso, hslash]

/-! ## Amount-parser lemmas -/

theorem parseDecLit_nonneg (t : Text) (d : Dec) (h : parseDecLit t = some d) :
    0 ≤ d.mantissa := by
  revert h
  unfold parseDecLit
  split
  · split
    · intro h
      cases h
      simp
    · intro h; cases h
  · split
    · intro h
      cases h
      positivity
    · intro h; cases h
  · intro h; cases h

theorem resolveSign_snd_inferred (e m : Option Bool) (p : Bool)
    (h : (resolveSign e m p).2 = .inferred) : (resolveSign e m p).1 = false := by
  cases e with
  | some n => simp [resolveSign] at h
  | none =>
    cases m with
    | some n => simp [resolveSign] at h
    | none => cases p <;> simp [resolveSign] at h ⊢

/-! ## Description-normalization lemmas -/

theorem head_dropWhile_not (p : Char → Bool) :
    ∀ (l : Text) (c : Char), (l.dropWhile p).head? = some c → p c = false := by
  intro l
  induction l with
  | nil => intro c h; cases h
  | cons x r ih =>
    intro c h
    by_cases hp : p x = true
    · rw [List.dropWhile_cons_of_pos hp] at h
      exact ih c h
    · rw [List.dropWhile_cons_of_neg hp] at h
      cases h
      exact Bool.eq_false_iff.2 hp

theorem trimLeft_headNotWS (t : Text) : headNotWS (trimLeft t) := by
  intro c h
  exact head_dropWhile_not isWS t c h

theorem trimRight_suffix_head (t : Text) : ∀ c : Char,
    (trimRight t).head? = some c → t.head? = some c := by
  intro c h
  unfold trimRight at h
  obtain ⟨pre, hpre⟩ : ∃ pre, t.reverse = pre ++ t.reverse.dropWhile isWS := by
    obtain ⟨pre, hp⟩ := (List.dropWhile_suffix (l := t.reverse) isWS)
    exact ⟨pre, hp.symm⟩
  have ht : t = (t.reverse.dropWhile isWS).reverse ++ pre.reverse := by
    have := congrArg List.reverse hpre
    simpa using this
  rw [ht]
  rcases hd : (t.reverse.dropWhile isWS).reverse with _ | ⟨x, xs⟩
  · rw [hd] at h; cases h
  · rw [hd] at h
    simpa using h

theorem trim_headNotWS (t : Text) : headNotWS (trim t) := by
  intro c h
  exact trimLeft_headNotWS t c (trimRight_suffix_head (trimLeft t) c h)

theorem trim_lastNotWS (t : Text) : lastNotWS (trim t) := by
  intro c h
  unfold trim trimRight at h
  rw [List.getLast?_eq_head?_reverse, List.reverse_reverse] at h
  exact head_dropWhile_not isWS _ c h

theorem trimLeft_fix_of_headNotWS (t : Text) (h : headNotWS t) :
    trimLeft t = t := by
  cases t with
  | nil => rfl
  | cons c r =>
    unfold trimLeft
    rw [List.dropWhile_cons_of_neg]
    simp [h c rfl]

theorem trimRight_fix_of_lastNotWS (t : Text) (h : lastNotWS t) :
    trimRight t = t := by
  unfold trimRight
  cases ht : t.reverse with
  | nil =>
    have : t = [] := by simpa using congrArg List.reverse ht
    simp [this]
  | cons c rest =>
    have hc : t.getLast? = some c := by
      rw [List.getLast?_eq_head?_reverse, ht]
      rfl
    rw [List.dropWhile_cons_of_neg (by simp [h c hc])]
    rw [← ht, List.reverse_reverse]

theorem trim_fix_of_not_ws (t : Text) (hh : headNotWS t) (hl : lastNotWS t) :
    trim t = t := by
  unfold trim
  rw [trimLeft_fix_of_headNotWS t hh, trimRight_fix_of_lastNotWS t hl]

theorem collapseAux_mem :
    ∀ (t : Text) (flag : Bool) (c : Char), c ∈ collapseAux flag t →
      c = ' ' ∨ isWS c = false := by
  intro t
  induction t with
  | nil => intro flag c h; cases h
  | cons x r ih =>
    intro flag c h
    by_cases hx : isWS x = true
    · cases flag with
      | true =>
        rw [show collapseAux true (x :: r) = collapseAux true r by
          simp [collapseAux, hx]] at h
        exact ih true c h
      | false =>
        rw [show collapseAux false (x :: r) = ' ' :: collapseAux true r by
          simp [collapseAux, hx]] at h
        rcases List.mem_cons.1 h with h | h
        · exact Or.inl h
        · exact ih true c h
    · rw [show collapseAux flag (x :: r) = x :: collapseAux false r by
        simp [collapseAux, hx]] at h
      rcases List.mem_cons.1 h with h | h
      · subst h; exact Or.inr (by simpa using hx)
      · exact ih false c h

theorem collapseAux_ne_nil :
    ∀ (t : Text) (flag : Bool), t ≠ [] → lastNotWS t →
      collapseAux flag t ≠ [] := by
  intro t
  induction t with
  | nil => intro flag h _; exact absurd rfl h
  | cons x r ih =>
    intro flag _ hl
    cases r with
    | nil =>
      have hx : isWS x = false := hl x rfl
      simp [collapseAux, hx]
    | cons y s =>
      have hl' : lastNotWS (y :: s) := by
        intro c hc
        exact hl c (by rwa [List.getLast?_cons_cons])
      by_cases hx : isWS x = true
      · cases flag with
        | true =>
          rw [show collapseAux true (x :: y :: s) = collapseAux true (y :: s) by
            simp [collapseAux, hx]]
          exact ih true (by simp) hl'
        | false => simp [collapseAux, hx]
      · simp [collapseAux, hx]

theorem collapseAux_lastNotWS :
    ∀ (t : Text) (flag : Bool), lastNotWS t →
      lastNotWS (collapseAux flag t) := by
  intro t
  induction t with
  | nil => intro flag _ c hc; cases hc
  | cons x r ih =>
    intro flag hl
    cases r with
    | nil =>
      have hx : isWS x = false := hl x rfl
      intro c hc
      rw [show collapseAux flag [x] = [x] by simp [collapseAux, hx]] at hc
      cases hc
      exact hx
    | cons y s =>
      have hl' : lastNotWS (y :: s) := by
        intro c hc
        exact hl c (by rwa [List.getLast?_cons_cons])
      have hne : collapseAux false (y :: s) ≠ [] :=
        collapseAux_ne_nil (y :: s) false (by simp) hl'
      have hneT : collapseAux true (y :: s) ≠ [] :=
        collapseAux_ne_nil (y :: s) true (by simp) hl'
      by_cases hx : isWS x = true
      · cases flag with
        | true =>
          rw [show collapseAux true (x :: y :: s) = collapseAux true (y :: s) by
            simp [collapseAux, hx]]
          exact ih true hl'
        | false =>
          rw [show collapseAux false (x :: y :: s) =
            ' ' :: collapseAux true (y :: s) by simp [collapseAux, hx]]
          intro c hc
          rw [List.getLast?_cons] at hc
          cases hgl : (collapseAux true (y :: s)).getLast? with
          | none =>
            exact absurd (List.getLast?_eq_none_iff.1 hgl) hneT
          | some d =>
            rw [hgl] at hc
            simp only [Option.getD_some, Option.some.injEq] at hc
            subst hc
            exact ih true hl' d hgl
      · rw [show collapseAux flag (x :: y :: s) =
          x :: collapseAux false (y :: s) by simp [collapseAux, hx]]
        intro c hc
        rw [List.getLast?_cons] at hc
        cases hgl : (collapseAux false (y :: s)).getLast? with
        | none =>
          exact absurd (List.getLast?_eq_none_iff.1 hgl) hne
        | some d =>
          rw [hgl] at hc
          simp only [Option.getD_some, Option.some.injEq] at hc
          subst hc
          exact ih false hl' d hgl

theorem collapseAux_head_true :
    ∀ t : Text, collapseAux true t = [] ∨
      ∃ d w, collapseAux true t = d :: w ∧ isWS d = false := by
  intro t
  induction t with
  | nil => exact Or.inl rfl
  | cons x r ih =>
    by_cases hx : isWS x = true
    · rw [show collapseAux true (x :: r) = collapseAux true r by
        simp [collapseAux, hx]]
      exact ih
    · exact Or.inr ⟨x, collapseAux false r, by simp [collapseAux, hx],
        by simpa using hx⟩

theorem collapsedOK_cons_of_head (c : Char) (w : Text) (hc : isWS c = false)
    (hw : collapsedOK w = true) : collapsedOK (c :: w) = true := by
  cases w with
  | nil => simp [collapsedOK, hc]
  | cons d r => simp [collapsedOK, hc, hw]

theorem collapseAux_collapsedOK :
    ∀ (t : Text) (flag : Bool), collapsedOK (collapseAux flag t) = true := by
  intro t
  induction t with
  | nil => intro flag; rfl
  | cons x r ih =>
    intro flag
    by_cases hx : isWS x = true
    · cases flag with
      | true =>
        rw [show collapseAux true (x :: r) = collapseAux true r by
          simp [collapseAux, hx]]
        exact ih true
      | false =>
        rw [show collapseAux false (x :: r) = ' ' :: collapseAux true r by
          simp [collapseAux, hx]]
        rcases collapseAux_head_true r with hr | ⟨d, w, hdw, hd⟩
        · rw [hr]; rfl
        · rw [hdw]
          have := ih true
          rw [hdw] at this
          simp [collapsedOK, hd, this]
    · rw [show collapseAux flag (x :: r) = x :: collapseAux false r by
        simp [collapseAux, hx]]
      exact collapsedOK_cons_of_head x _ (by simpa using hx) (ih false)

theorem collapseAux_true_of_head (t : Text) (hh : headNotWS t) :
    collapseAux true t = collapseAux false t := by
  cases t with
  | nil => rfl
  | cons c r =>
    have hc : isWS c = false := hh c rfl
    simp [collapseAux, hc]

theorem collapseAux_fix :
    ∀ t : Text, collapsedOK t = true → collapseAux false t = t := by
  intro t
  induction t with
  | nil => intro _; rfl
  | cons c r ih =>
    intro h
    by_cases hc : isWS c = true
    · have hparts : c = ' ' ∧ (r = [] ∨ ∃ d s, r = d :: s ∧ isWS d = false) := by
        cases r with
        | nil =>
          simp only [collapsedOK, hc, Bool.not_true, Bool.false_or] at h
          exact ⟨by simpa using h, Or.inl rfl⟩
        | cons d s =>
          simp only [collapsedOK, hc, Bool.not_true, Bool.false_or,
            Bool.and_eq_true] at h
          exact ⟨by simpa using h.1.1, Or.inr ⟨d, s, rfl, by
            simpa using h.1.2⟩⟩
      obtain ⟨hsp, hrest⟩ := hparts
      subst hsp
      rcases hrest with hr | ⟨d, s, hr, hd⟩
      · subst hr; rfl
      · subst hr
        have hOKr : collapsedOK (d :: s) = true := by
          simp only [collapsedOK, Bool.and_eq_true] at h
          exact h.2
        have : collapseAux true (d :: s) = collapseAux false (d :: s) :=
          collapseAux_true_of_head _ (fun c hc' => by cases hc'; exact hd)
        calc collapseAux false (' ' :: d :: s)
            = ' ' :: collapseAux true (d :: s) := by rfl
          _ = ' ' :: collapseAux false (d :: s) := by rw [this]
          _ = ' ' :: d :: s := by rw [ih hOKr]
    · have hOKr : collapsedOK r = true := by
        cases r with
        | nil => rfl
        | cons d s =>
          simp only [collapsedOK, Bool.and_eq_true] at h
          exact h.2
      rw [show collapseAux false (c :: r) = c :: collapseAux false r by
        simp [collapseAux, hc]]
      rw [ih hOKr]

/-- The normalized description has a non-whitespace head. -/
theorem normalizeDesc_headNotWS (t : Text) : headNotWS (normalizeDesc t) := by
  unfold normalizeDesc collapseWS
  intro c hc
  cases ht : trim t with
  | nil => rw [ht] at hc; cases hc
  | cons x r =>
    have hx : isWS x = false := by
      have := trim_headNotWS t
      rw [ht] at this
      exact this x rfl
    rw [ht] at hc
    rw [show collapseAux false (x :: r) = x :: collapseAux false r by
      simp [collapseAux, hx]] at hc
    cases hc
    exact hx

/-- The normalized description has a non-whitespace last character. -/
theorem normalizeDesc_lastNotWS (t : Text) : lastNotWS (normalizeDesc t) := by
  unfold normalizeDesc collapseWS
  exact collapseAux_lastNotWS (trim t) false (trim_lastNotWS t)

/-- Normalizing a description is idempotent. -/
theorem normalizeDesc_idem (t : Text) :
    normalizeDesc (normalizeDesc t) = normalizeDesc t := by
  conv_lhs => rw [normalizeDesc]
  rw [trim_fix_of_not_ws _ (normalizeDesc_headNotWS t)
    (normalizeDesc_lastNotWS t)]
  unfold normalizeDesc collapseWS
  exact collapseAux_fix _ (collapseAux_collapsedOK (trim t) false)

/-! ## Tokenizer lemmas -/

theorem Spans.get_set_same (s : Spans) (k : FieldKind) (v : Text) :
    (s.set k v).get k = some v := by
  cases k <;> rfl

theorem Spans.get_set_ne (s : Spans) (k k' : FieldKind) (v : Text)
    (h : k' ≠ k) : (s.set k' v).get k = s.get k := by
  cases k <;> cases k' <;> first
    | rfl
    | exact absurd rfl h

theorem labeledScan_go :
    ∀ (lines : List Text) (s : Spans) (k : FieldKind),
      (lines.foldl (fun s line =>
        match lineField line with
        | some kv => s.set kv.1 kv.2
        | none => s) s).get k =
      match lastLabeled lines k with
      | some v => some v
      | none => s.get k := by
  intro lines
  induction lines with
  | nil => intro s k; rfl
  | cons line rest ih =>
    intro s k
    simp only [List.foldl_cons]
    rw [ih]
    cases hrest : lastLabeled rest k with
    | some w => simp [lastLabeled, hrest]
    | none =>
      cases hlf : lineField line with
      | none => simp [lastLabeled, hrest, hlf]
      | some kv =>
        by_cases hk : kv.1 = k
        · subst hk
          simp [lastLabeled, hrest, hlf, Spans.get_set_same]
        · simp [lastLabeled, hrest, hlf, hk, Spans.get_set_ne s _ _ _ hk]

/-- The labeled scan assigns each field kind the value of the last labeled
line of that kind. -/
theorem labeledScan_eq_lastLabeled (lines : List Text) (k : FieldKind) :
    (labeledScan lines).get k = lastLabeled lines k := by
  unfold labeledScan
  rw [labeledScan_go]
  cases h : lastLabeled lines k with
  | some v => rfl
  | none => cases k <;> rfl

/-- Pattern inference never overrides a field located via a labeled line. -/
theorem inferSpans_get_of_some (text : Text) (s : Spans) (k : FieldKind)
    (v : Text) (h : s.get k = some v) : (inferSpans text s).get k = some v := by
  cases k <;>
    simp only [Spans.get] at h <;>
    simp [inferSpans, Spans.get, h, Option.orElse]

/-! ## Extraction-pipeline inversion lemmas -/

theorem floor0_nonneg (x : Int) : 0 ≤ floor0 x := by
  unfold floor0
  split <;> omega

theorem floor0_le_of_le (x c : Int) (hx : x ≤ c) (hc : 0 ≤ c) :
    floor0 x ≤ c := by
  unfold floor0
  split <;> omega

/-- The assembler's confidence, written out. -/
theorem assemble_confidence (d : ParsedDate) (ambig : Bool) (desc : Text)
    (a : ParsedAmount) (bal : Option Dec) :
    (assemble d ambig desc a bal).confidence =
      floor0 (100 - ((if a.provenance = .inferred then signPenalty else 0) +
        (if bal.isNone then balancePenalty else 0) +
        (if ambig then datePenalty else 0))) := rfl

theorem assemble_balanceAfter (d : ParsedDate) (ambig : Bool) (desc : Text)
    (a : ParsedAmount) (bal : Option Dec) :
    (assemble d ambig desc a bal).balanceAfter = bal := rfl

theorem andThen_ok {α β : Type} (x : Except ExtractionError α)
    (f : α → Except ExtractionError β) (r : β)
    (h : andThen x f = .ok r) : ∃ v, x = .ok v ∧ f v = .ok r := by
  cases x with
  | error e => cases h
  | ok v => exact ⟨v, rfl, h⟩

theorem require_ok {α : Type} (o : Option α) (e : ExtractionError) (v : α)
    (h : require o e = .ok v) : o = some v := by
  cases o with
  | none => cases h
  | some x => cases h; rfl

theorem requireDesc_ok (d : Text) (v : Text) (h : requireDesc d = .ok v) :
    v = d ∧ d ≠ [] := by
  unfold requireDesc at h
  by_cases hd : d.isEmpty
  · rw [if_pos hd] at h; cases h
  · rw [if_neg hd] at h
    cases h
    exact ⟨rfl, by simpa [List.isEmpty_iff] using hd⟩

theorem requireAmt_ok (orig : Text) (o : Option ParsedAmount)
    (a : ParsedAmount) (h : requireAmt orig o = .ok a) :
    o = some a ∧ a.value.mantissa ≠ 0 := by
  cases o with
  | none => cases h
  | some x =>
    simp only [requireAmt] at h
    by_cases hx : x.value.mantissa = 0
    · rw [if_pos hx] at h; cases h
    · rw [if_neg hx] at h
      cases h
      exact ⟨rfl, hx⟩

theorem requireBal_ok (b : Option Text) (bal : Option Dec)
    (h : requireBal b = .ok bal) :
    (b = none ∧ bal = none) ∨
    (∃ bspan pb, b = some bspan ∧ parseAmount bspan = some pb ∧
      bal = some pb.value) := by
  cases b with
  | none => cases h; exact Or.inl ⟨rfl, rfl⟩
  | some bspan =>
    simp only [requireBal] at h
    cases hp : parseAmount bspan with
    | none => rw [hp] at h; cases h
    | some pb =>
      rw [hp] at h
      cases h
      exact Or.inr ⟨bspan, pb, rfl, hp, rfl⟩

theorem gate_ok (r r' : TransactionRecord) (h : gate r = .ok r') :
    r' = r ∧ defaultThreshold ≤ r.confidence := by
  unfold gate at h
  by_cases hc : r.confidence < defaultThreshold
  · rw [if_pos hc] at h; cases h
  · rw [if_neg hc] at h
    cases h
    exact ⟨rfl, le_of_not_lt hc⟩

theorem finalize_ok (r : TransactionRecord) (p : Option Dec)
    (r' : TransactionRecord) (h : finalize r p = .ok r') :
    r' = r ∧ defaultThreshold ≤ r.confidence := by
  unfold finalize at h
  split at h
  · dsimp only at h
    split at h
    · exact gate_ok r r' h
    · cases h
  · exact gate_ok r r' h

/-- Inversion of a successful extraction: the spans, parses and the final
record shape, together with the confidence-gate bound. -/
theorem extract_ok_inv (text : Text) (prior : Option Dec)
    (r : TransactionRecord) (h : extract text prior = .ok r) :
    ∃ (dspan descspan aspan : Text) (da : ParsedDate × Bool)
      (a : ParsedAmount) (bal : Option Dec),
      (tokenize text).date = some dspan ∧
      (tokenize text).description = some descspan ∧
      (tokenize text).amount = some aspan ∧
      parseDate dspan = some da ∧
      parseAmount aspan = some a ∧
      a.value.mantissa ≠ 0 ∧
      normalizeDesc descspan ≠ [] ∧
      requireBal (tokenize text).balance = .ok bal ∧
      r = assemble da.1 da.2 (normalizeDesc descspan) a bal ∧
      defaultThreshold ≤ r.confidence := by
  simp only [extract] at h
  split at h
  · cases h
  · obtain ⟨dspan, hd, h⟩ := andThen_ok _ _ _ h
    obtain ⟨descspan, hdesc, h⟩ := andThen_ok _ _ _ h
    obtain ⟨aspan, ha, h⟩ := andThen_ok _ _ _ h
    obtain ⟨da, hda, h⟩ := andThen_ok _ _ _ h
    obtain ⟨desc, hdescok, h⟩ := andThen_ok _ _ _ h
    obtain ⟨a, haok, h⟩ := andThen_ok _ _ _ h
    obtain ⟨bal, hbal, h⟩ := andThen_ok _ _ _ h
    obtain ⟨hdesc_eq, hdesc_ne⟩ := requireDesc_ok _ _ hdescok
    obtain ⟨hpa, hnz⟩ := requireAmt_ok _ _ _ haok
    obtain ⟨hr, hconf⟩ := finalize_ok _ _ _ h
    subst hdesc_eq
    refine ⟨dspan, descspan, aspan, da, a, bal,
      require_ok _ _ _ hd, require_ok _ _ _ hdesc, require_ok _ _ _ ha,
      require_ok _ _ _ hda, hpa, hnz, hdesc_ne, hbal, hr, ?_⟩
    rw [hr]
    exact hconf

/-! ## Rendering and round-trip lemmas -/

theorem upperLower_keys_not_digit : ∀ p ∈ upperLower, isDigit p.1 = false := by
  decide

theorem lowerChar_digit {c : Char} (h : isDigit c = true) : lowerChar c = c := by
  unfold lowerChar
  have hnone : upperLower.find? (fun p => p.1 == c) = none := by
    rw [List.find?_eq_none]
    intro p hp
    have hpd := upperLower_keys_not_digit p hp
    intro hb
    have hpc : p.1 = c := eq_of_beq hb
    rw [hpc, h] at hpd
    cases hpd
  rw [hnone]
  rfl

theorem padZeros_digits (w : Nat) (ds : List Char)
    (h : ∀ c ∈ ds, isDigit c = true) :
    ∀ c ∈ padZeros w ds, isDigit c = true := by
  intro c hc
  unfold padZeros at hc
  rcases List.mem_append.1 hc with hc | hc
  · have := List.eq_of_mem_replicate hc
    subst this
    decide
  · exact h c hc

theorem padZeros_ne_nil (w : Nat) (ds : List Char) (h : ds ≠ []) :
    padZeros w ds ≠ [] := by
  unfold padZeros
  intro hcontra
  exact h (List.append_eq_nil.1 hcontra).2

theorem allDigits_padZeros (w : Nat) (ds : List Char)
    (h : allDigits ds = true) : allDigits (padZeros w ds) = true := by
  unfold allDigits at h ⊢
  rw [Bool.and_eq_true] at h ⊢
  obtain ⟨h1, h2⟩ := h
  constructor
  · have h1' : ds ≠ [] := by
      intro hnil
      rw [hnil] at h1
      simp at h1
    cases hpz : padZeros w ds with
    | nil => exact absurd hpz (padZeros_ne_nil w ds h1')
    | cons a l => rfl
  · rw [List.all_eq_true] at h2 ⊢
    exact fun c hc => padZeros_digits w ds (fun x hx => h2 x hx) c hc

theorem foldl_digitStep_zeros :
    ∀ k : Nat, List.foldl digitStep 0 (List.replicate k '0') = 0 := by
  intro k
  induction k with
  | zero => rfl
  | succ k ih =>
    rw [List.replicate_succ, List.foldl_cons]
    exact ih

theorem digitsToNat_padZeros (w : Nat) (ds : List Char) :
    digitsToNat (padZeros w ds) = digitsToNat ds := by
  unfold digitsToNat padZeros
  rw [List.foldl_append, foldl_digitStep_zeros]

theorem natDigitsCore_length_le :
    ∀ (m fuel e : Nat), m ≤ fuel → m < 10 ^ e →
      (natDigitsCore fuel m []).length ≤ e := by
  intro m
  induction m using Nat.strong_induction_on with
  | _ m ih =>
    intro fuel e hfuel hlt
    by_cases h : m = 0
    · subst h
      rw [natDigitsCore_zero]
      simp
    · obtain ⟨f, rfl⟩ : ∃ f, fuel = f + 1 := ⟨fuel - 1, by omega⟩
      have hstep : natDigitsCore (f + 1) m [] =
          natDigitsCore f (m / 10) [] ++ [digitChar (m % 10)] := by
        simp only [natDigitsCore, if_neg h]
        exact natDigitsCore_acc f (m / 10) [digitChar (m % 10)]
      rw [hstep, List.length_append]
      obtain ⟨e', rfl⟩ : ∃ e', e = e' + 1 := by
        refine ⟨e - 1, ?_⟩
        have : e ≠ 0 := by
          intro h0
          rw [h0] at hlt
          simp at hlt
          omega
        omega
      have hdiv : m / 10 < m := Nat.div_lt_self (by omega) (by omega)
      have hdivlt : m / 10 < 10 ^ e' := by
        rw [pow_succ] at hlt
        exact (Nat.div_lt_iff_lt_mul (by omega)).2 hlt
      have := ih (m / 10) hdiv f e' (by omega) hdivlt
      simp only [List.length_cons, List.length_nil]
      omega

theorem natDigits_length_le (m e : Nat) (hm : m < 10 ^ e) (he : 0 < e) :
    (natDigits m).length ≤ e := by
  unfold natDigits
  by_cases h : m = 0
  · rw [if_pos h]
    simpa using he
  · rw [if_neg h]
    exact natDigitsCore_length_le m m e le_rfl hm

theorem padZeros_length (w : Nat) (ds : List Char) (h : ds.length ≤ w) :
    (padZeros w ds).length = w := by
  unfold padZeros
  rw [List.length_append, List.length_replicate]
  omega

theorem renderDecMag_chars (d : Dec) :
    ∀ c ∈ renderDecMag d, isDigit c = true ∨ c = '.' := by
  intro c hc
  simp only [renderDecMag] at hc
  split at hc
  · exact Or.inl (natDigits_digits _ c hc)
  · rcases List.mem_append.1 hc with hc | hc
    · exact Or.inl (natDigits_digits _ c hc)
    · rcases List.mem_cons.1 hc with hc | hc
      · exact Or.inr hc
      · exact Or.inl (padZeros_digits _ _ (natDigits_digits _) c hc)

theorem renderDecMag_ne_nil (d : Dec) : renderDecMag d ≠ [] := by
  simp only [renderDecMag]
  split
  · exact natDigits_ne_nil _
  · intro h
    exact natDigits_ne_nil _ (List.append_eq_nil.1 h).1

theorem parseDecLit_renderDecMag (d : Dec) :
    parseDecLit (renderDecMag d) =
      some ⟨(d.mantissa.natAbs : Int), d.exp⟩ := by
  simp only [renderDecMag]
  split
  · rename_i he
    unfold parseDecLit
    rw [splitOnC_sep_free '.' _ (fun c hc =>
      beq_eq_false_of_digit (natDigits_digits _ c hc) (by decide))]
    simp [allDigits_natDigits, digitsToNat_natDigits, he]
  · rename_i he
    unfold parseDecLit
    have hA : ∀ c ∈ natDigits (d.mantissa.natAbs / 10 ^ d.exp),
        (c == '.') = false := fun c hc =>
      beq_eq_false_of_digit (natDigits_digits _ c hc) (by decide)
    have hB : ∀ c ∈ padZeros d.exp (natDigits (d.mantissa.natAbs % 10 ^ d.exp)),
        (c == '.') = false := fun c hc =>
      beq_eq_false_of_digit (padZeros_digits _ _ (natDigits_digits _) c hc)
        (by decide)
    rw [splitOnC_append '.' _ _ hA, splitOnC_sep_free '.' _ hB]
    have hlen : (padZeros d.exp
        (natDigits (d.mantissa.natAbs % 10 ^ d.exp))).length = d.exp :=
      padZeros_length _ _ (natDigits_length_le _ _
        (Nat.mod_lt _ (by positivity)) (by omega))
    simp only [allDigits_natDigits, allDigits_padZeros _ _
      (allDigits_natDigits _), Bool.and_self, if_true]
    rw [hlen, digitsToNat_padZeros, digitsToNat_natDigits,
      digitsToNat_natDigits, Nat.div_add_mod']

theorem trim_space_cons (u : Text) : trim (' ' :: u) = trim u := by
  unfold trim trimLeft
  rw [List.dropWhile_cons_of_pos (by decide)]

theorem marker_lookup_none (c : Char) (rest : Text)
    (hlc : lowerChar c = c) (hd : (c == 'd') = false)
    (hc : (c == 'c') = false) :
    lookupT (lowerT (c :: rest)) markerTable = none := by
  simp [lowerT, lookupT, markerTable, eqT, hlc, hd, hc]

theorem currency_memT_none (c : Char) (rest : Text)
    (hlc : lowerChar c = c)
    (hi : (c == 'i') = false) (hu : (c == 'u') = false)
    (he : (c == 'e') = false) (hg : (c == 'g') = false)
    (hr : (c == 'r') = false) :
    isCurrencyTok (c :: rest) = false := by
  simp [isCurrencyTok, memT, currencyWords, lowerT, eqT, hlc, hi, hu, he, hg,
    hr]

theorem stripMarkerToks_single (t : Text)
    (h : lookupT (lowerT t) markerTable = none) :
    stripMarkerToks [t] = (none, [t]) := by
  simp [stripMarkerToks, h]

theorem parse_render_filter (t : Text)
    (h : ∀ c ∈ t, isDigit c = true ∨ c = '.') :
    t.filter (fun c => !isCurrencySym c && c != ',') = t := by
  rw [List.filter_eq_self]
  intro a ha
  rcases h a ha with h | h
  · have h1 := beq_eq_false_of_digit h (show isDigit '₹' = false by decide)
    have h2 := beq_eq_false_of_digit h (show isDigit '$' = false by decide)
    have h3 := beq_eq_false_of_digit h (show isDigit '€' = false by decide)
    have h4 := beq_eq_false_of_digit h (show isDigit '£' = false by decide)
    have h5 := beq_eq_false_of_digit h (show isDigit ',' = false by decide)
    simp only [isCurrencySym, h1, h2, h3, h4, Bool.or_self, Bool.or_false,
      Bool.not_false, Bool.true_and, ne_eq, bne_iff_ne]
    intro hcc
    rw [hcc] at h5
    simp at h5
  · subst h
    decide

theorem parseAmount_sign_core (mag : Text) (s : Char) (neg : Bool)
    (hmag : ∀ c ∈ mag, isDigit c = true ∨ c = '.')
    (hs : (s = '-' ∧ neg = true) ∨ (s = '+' ∧ neg = false))
    (d0 : Dec) (hparse : parseDecLit mag = some d0) :
    parseAmount (' ' :: s :: mag) = some (mkAmount d0 (neg, .explicitSign)) := by
  have hnoWSmag : ∀ c ∈ mag, isWS c = false := by
    intro c hc
    rcases hmag c hc with h | h
    · exact not_ws_of_digit h
    · subst h; decide
  have hsWS : isWS s = false := by
    rcases hs with ⟨h, _⟩ | ⟨h, _⟩ <;> subst h <;> decide
  have hnoWS : ∀ c ∈ s :: mag, isWS c = false := by
    intro c hc
    rcases List.mem_cons.1 hc with hc | hc
    · subst hc; exact hsWS
    · exact hnoWSmag c hc
  have htrim : trim (' ' :: s :: mag) = s :: mag := by
    rw [trim_space_cons, trim_fixed _ hnoWS]
  have hsne : ¬ s = '(' := by
    rcases hs with ⟨h, _⟩ | ⟨h, _⟩ <;> subst h <;> decide
  have hsp : stripParens (s :: mag) = (s :: mag, false) := by
    simp [stripParens, hsne]
  have hws : wsTokens (s :: mag) = [s :: mag] :=
    wsTokens_single _ (by simp) hnoWS
  have hlc : lowerChar s = s := by
    rcases hs with ⟨h, _⟩ | ⟨h, _⟩ <;> subst h <;> decide
  have hmk : stripMarkerToks [s :: mag] = (none, [s :: mag]) :=
    stripMarkerToks_single _ (marker_lookup_none s mag hlc
      (by rcases hs with ⟨h, _⟩ | ⟨h, _⟩ <;> subst h <;> decide)
      (by rcases hs with ⟨h, _⟩ | ⟨h, _⟩ <;> subst h <;> decide))
  have hcur : isCurrencyTok (s :: mag) = false :=
    currency_memT_none s mag hlc
      (by rcases hs with ⟨h, _⟩ | ⟨h, _⟩ <;> subst h <;> decide)
      (by rcases hs with ⟨h, _⟩ | ⟨h, _⟩ <;> subst h <;> decide)
      (by rcases hs with ⟨h, _⟩ | ⟨h, _⟩ <;> subst h <;> decide)
      (by rcases hs with ⟨h, _⟩ | ⟨h, _⟩ <;> subst h <;> decide)
      (by rcases hs with ⟨h, _⟩ | ⟨h, _⟩ <;> subst h <;> decide)
  have hfil : [s :: mag].filter (fun tk => !isCurrencyTok tk) = [s :: mag] := by
    simp [hcur]
  have hfold : List.foldr (fun a b => a ++ b) ([] : Text) [s :: mag] =
      s :: mag := by simp
  have hsig : stripExplicitSign (s :: mag) = (some neg, mag) := by
    rcases hs with ⟨h1, h2⟩ | ⟨h1, h2⟩ <;> subst h1 <;> subst h2 <;>
      simp [stripExplicitSign]
  have hfil2 : mag.filter (fun c => !isCurrencySym c && c != ',') = mag :=
    parse_render_filter mag hmag
  simp only [parseAmount, htrim, hsp, hws, hmk, hfil, hfold, hsig, hfil2,
    hparse, Option.map_some']
  rfl

theorem parseAmount_nosign_core (mag : Text) (c0 : Char) (rest0 : Text)
    (hshape : mag = c0 :: rest0) (hc0 : isDigit c0 = true)
    (hmag : ∀ c ∈ mag, isDigit c = true ∨ c = '.')
    (d0 : Dec) (hparse : parseDecLit mag = some d0) :
    parseAmount (' ' :: mag) = some (mkAmount d0 (false, .inferred)) := by
  have hnoWS : ∀ c ∈ mag, isWS c = false := by
    intro c hc
    rcases hmag c hc with h | h
    · exact not_ws_of_digit h
    · subst h; decide
  have htrim : trim (' ' :: mag) = mag := by
    rw [trim_space_cons, trim_fixed _ hnoWS]
  have hne_paren : ¬ c0 = '(' := by
    intro hcontra
    rw [hcontra] at hc0
    cases hc0
  have hsp : stripParens mag = (mag, false) := by
    rw [hshape]
    simp [stripParens, hne_paren]
  have hws : wsTokens mag = [mag] :=
    wsTokens_single _ (by rw [hshape]; simp) hnoWS
  have hlc : lowerChar c0 = c0 := lowerChar_digit hc0
  have hmk : stripMarkerToks [mag] = (none, [mag]) := by
    rw [hshape]
    exact stripMarkerToks_single _ (marker_lookup_none c0 rest0 hlc
      (beq_eq_false_of_digit hc0 (by decide))
      (beq_eq_false_of_digit hc0 (by decide)))
  have hcur : isCurrencyTok mag = false := by
    rw [hshape]
    exact currency_memT_none c0 rest0 hlc
      (beq_eq_false_of_digit hc0 (by decide))
      (beq_eq_false_of_digit hc0 (by decide))
      (beq_eq_false_of_digit hc0 (by decide))
      (beq_eq_false_of_digit hc0 (by decide))
      (beq_eq_false_of_digit hc0 (by decide))
  have hfil : [mag].filter (fun tk => !isCurrencyTok tk) = [mag] := by
    simp [hcur]
  have hfold : List.foldr (fun a b => a ++ b) ([] : Text) [mag] = mag := by
    simp
  have hne_minus : ¬ c0 = '-' := by
    intro hcontra
    rw [hcontra] at hc0
    cases hc0
  have hne_plus : ¬ c0 = '+' := by
    intro hcontra
    rw [hcontra] at hc0
    cases hc0
  have hsig : stripExplicitSign mag = (none, mag) := by
    rw [hshape]
    simp [stripExplicitSign, hne_minus, hne_plus]
  have hfil2 : mag.filter (fun c => !isCurrencySym c && c != ',') = mag :=
    parse_render_filter mag hmag
  simp only [parseAmount, htrim, hsp, hws, hmk, hfil, hfold, hsig, hfil2,
    hparse, Option.map_some']
  rfl

theorem renderDecMag_head_digit (d : Dec) :
    ∃ c0 rest0, renderDecMag d = c0 :: rest0 ∧ isDigit c0 = true := by
  simp only [renderDecMag]
  split
  · cases h : natDigits d.mantissa.natAbs with
    | nil => exact absurd h (natDigits_ne_nil _)
    | cons c0 r =>
      refine ⟨c0, r, rfl, ?_⟩
      have := natDigits_digits d.mantissa.natAbs c0 (by rw [h]; simp)
      exact this
  · cases h : natDigits (d.mantissa.natAbs / 10 ^ d.exp) with
    | nil => exact absurd h (natDigits_ne_nil _)
    | cons c0 r =>
      refine ⟨c0, r ++ '.' ::
        padZeros d.exp (natDigits (d.mantissa.natAbs % 10 ^ d.exp)), ?_, ?_⟩
      · simp [h]
      · have := natDigits_digits (d.mantissa.natAbs / 10 ^ d.exp) c0
          (by rw [h]; simp)
        exact this

/-- Re-reading a rendered signed amount gives back the exact value, with
explicit-sign provenance. -/
theorem parseAmount_space_renderDecSigned (d : Dec) :
    parseAmount (' ' :: renderDecSigned d) = some ⟨d, .explicitSign⟩ := by
  obtain ⟨m, e⟩ := d
  by_cases hneg : m < 0
  · have hd : renderDecSigned ⟨m, e⟩ = '-' :: renderDecMag ⟨m, e⟩ := by
      simp [renderDecSigned, hneg]
    rw [hd, parseAmount_sign_core (renderDecMag ⟨m, e⟩) '-' true
      (renderDecMag_chars _) (Or.inl ⟨rfl, rfl⟩) _ (parseDecLit_renderDecMag _)]
    rw [show mkAmount ⟨(m.natAbs : Int), e⟩ (true, .explicitSign) =
      ⟨⟨-(m.natAbs : Int), e⟩, .explicitSign⟩ from rfl]
    simp only [Option.some.injEq, ParsedAmount.mk.injEq, Dec.mk.injEq]
    refine ⟨⟨?_, trivial⟩, trivial⟩
    omega
  · have hd : renderDecSigned ⟨m, e⟩ = '+' :: renderDecMag ⟨m, e⟩ := by
      simp [renderDecSigned, hneg]
    rw [hd, parseAmount_sign_core (renderDecMag ⟨m, e⟩) '+' false
      (renderDecMag_chars _) (Or.inr ⟨rfl, rfl⟩) _ (parseDecLit_renderDecMag _)]
    rw [show mkAmount ⟨(m.natAbs : Int), e⟩ (false, .explicitSign) =
      ⟨⟨(m.natAbs : Int), e⟩, .explicitSign⟩ from rfl]
    simp only [Option.some.injEq, ParsedAmount.mk.injEq, Dec.mk.injEq]
    refine ⟨⟨?_, trivial⟩, trivial⟩
    omega

/-- Re-reading a rendered plain balance gives back the exact value (with
explicit provenance when negative, inferred-positive otherwise). -/
theorem parseAmount_space_renderDecPlain (d : Dec) :
    ∃ prov, parseAmount (' ' :: renderDecPlain d) = some ⟨d, prov⟩ := by
  obtain ⟨m, e⟩ := d
  by_cases hneg : m < 0
  · refine ⟨.explicitSign, ?_⟩
    have hd : renderDecPlain ⟨m, e⟩ = '-' :: renderDecMag ⟨m, e⟩ := by
      simp [renderDecPlain, hneg]
    rw [hd, parseAmount_sign_core (renderDecMag ⟨m, e⟩) '-' true
      (renderDecMag_chars _) (Or.inl ⟨rfl, rfl⟩) _ (parseDecLit_renderDecMag _)]
    rw [show mkAmount ⟨(m.natAbs : Int), e⟩ (true, .explicitSign) =
      ⟨⟨-(m.natAbs : Int), e⟩, .explicitSign⟩ from rfl]
    simp only [Option.some.injEq, ParsedAmount.mk.injEq, Dec.mk.injEq]
    refine ⟨⟨?_, trivial⟩, trivial⟩
    omega
  · refine ⟨.inferred, ?_⟩
    have hd : renderDecPlain ⟨m, e⟩ = renderDecMag ⟨m, e⟩ := by
      simp [renderDecPlain, hneg]
    obtain ⟨c0, rest0, hshape, hc0⟩ := renderDecMag_head_digit ⟨m, e⟩
    rw [hd, parseAmount_nosign_core (renderDecMag ⟨m, e⟩) c0 rest0 hshape hc0
      (renderDecMag_chars _) _ (parseDecLit_renderDecMag _)]
    rw [show mkAmount ⟨(m.natAbs : Int), e⟩ (false, .inferred) =
      ⟨⟨(m.natAbs : Int), e⟩, .inferred⟩ from rfl]
    simp only [Option.some.injEq, ParsedAmount.mk.injEq, Dec.mk.injEq]
    refine ⟨⟨?_, trivial⟩, trivial⟩
    omega

theorem renderDate_chars (dt : ParsedDate) :
    ∀ c ∈ renderDate dt, isDigit c = true ∨ c = '-' := by
  intro c hc
  unfold renderDate at hc
  rcases List.mem_append.1 hc with hc | hc
  · exact Or.inl (natDigits_digits _ c hc)
  · rcases List.mem_cons.1 hc with hc | hc
    · exact Or.inr hc
    · rcases List.mem_append.1 hc with hc | hc
      · exact Or.inl (padZeros_digits _ _ (natDigits_digits _) c hc)
      · rcases List.mem_cons.1 hc with hc | hc
        · exact Or.inr hc
        · exact Or.inl (padZeros_digits _ _ (natDigits_digits _) c hc)

theorem renderDate_ne_nil (dt : ParsedDate) : renderDate dt ≠ [] := by
  unfold renderDate
  intro h
  exact natDigits_ne_nil _ (List.append_eq_nil.1 h).1

theorem renderDate_no_ws (dt : ParsedDate) :
    ∀ c ∈ renderDate dt, isWS c = false := by
  intro c hc
  rcases renderDate_chars dt c hc with h | h
  · exact not_ws_of_digit h
  · subst h; decide

/-- Re-reading a rendered ISO date (as it appears after the label colon)
gives back the date, unambiguously. -/
theorem parseDate_space_renderDate (dt : ParsedDate)
    (hv : validDate dt.year dt.month dt.day = true) :
    parseDate (' ' :: renderDate dt) = some (dt, false) := by
  have htrim : trim (' ' :: renderDate dt) = renderDate dt := by
    rw [trim_space_cons, trim_fixed _ (renderDate_no_ws dt)]
  have hdmony : parseDMonY (renderDate dt) = none := by
    unfold parseDMonY
    rw [wsTokens_single _ (renderDate_ne_nil dt) (renderDate_no_ws dt)]
  have hsplit : splitOnC '-' (renderDate dt) =
      [natDigits dt.year, padZeros 2 (natDigits dt.month),
       padZeros 2 (natDigits dt.day)] := by
    unfold renderDate
    rw [splitOnC_append '-' _ _ (fun c hc =>
        beq_eq_false_of_digit (natDigits_digits _ c hc) (by decide)),
      splitOnC_append '-' _ _ (fun c hc =>
        beq_eq_false_of_digit
          (padZeros_digits _ _ (natDigits_digits _) c hc) (by decide)),
      splitOnC_sep_free '-' _ (fun c hc =>
        beq_eq_false_of_digit
          (padZeros_digits _ _ (natDigits_digits _) c hc) (by decide))]
  have hiso : parseISO (renderDate dt) =
      some (⟨dt.year, dt.month, dt.day⟩, false) := by
    unfold parseISO
    rw [hsplit]
    simp only [allDigits_natDigits,
      allDigits_padZeros _ _ (allDigits_natDigits _), Bool.and_self, if_true,
      digitsToNat_padZeros, digitsToNat_natDigits, hv]
  simp only [parseDate, htrim, hdmony, hiso]

theorem parseDMonY_valid (s : Text) (d : ParsedDate) (amb : Bool)
    (h : parseDMonY s = some (d, amb)) :
    validDate d.year d.month d.day = true := by
  unfold parseDMonY at h
  split at h
  · split at h
    · split at h
      · dsimp only at h
        split at h
        · rename_i hv
          cases h
          exact hv
        · cases h
      · cases h
    · cases h
  · cases h

theorem parseISO_valid (s : Text) (d : ParsedDate) (amb : Bool)
    (h : parseISO s = some (d, amb)) :
    validDate d.year d.month d.day = true := by
  unfold parseISO at h
  split at h
  · split at h
    · dsimp only at h
      split at h
      · rename_i hv
        cases h
        exact hv
      · cases h
    · cases h
  · cases h

theorem slashResolve_valid (a b y : Nat) (d : ParsedDate) (amb : Bool)
    (h : slashResolve a b y = some (d, amb)) :
    validDate d.year d.month d.day = true := by
  unfold slashResolve at h
  split at h
  · split at h
    · rename_i hv
      cases h
      exact hv
    · cases h
  · split at h
    · split at h
      · rename_i hv
        cases h
        exact hv
      · cases h
    · split at h
      · rename_i hv
        cases h
        exact hv
      · cases h

theorem parseSlash_valid (s : Text) (d : ParsedDate) (amb : Bool)
    (h : parseSlash s = some (d, amb)) :
    validDate d.year d.month d.day = true := by
  unfold parseSlash at h
  split at h
  · split at h
    · exact slashResolve_valid _ _ _ _ _ h
    · cases h
  · cases h

/-- Every date the date parser accepts is valid (month, day, year window). -/
theorem parseDate_valid (t : Text) (d : ParsedDate) (amb : Bool)
    (h : parseDate t = some (d, amb)) :
    validDate d.year d.month d.day = true := by
  simp only [parseDate] at h
  cases h1 : parseDMonY (trim t) with
  | some r =>
    rw [h1] at h
    cases h
    exact parseDMonY_valid _ _ _ h1
  | none =>
    rw [h1] at h
    cases h2 : parseISO (trim t) with
    | some r =>
      rw [h2] at h
      cases h
      exact parseISO_valid _ _ _ h2
    | none =>
      rw [h2] at h
      exact parseSlash_valid _ _ _ h

theorem lineField_date_line (v : Text) :
    lineField ('D' :: 'a' :: 't' :: 'e' :: ':' :: ' ' :: v) =
      some (.date, ' ' :: v) := rfl

theorem lineField_desc_line (v : Text) :
    lineField ('D' :: 'e' :: 's' :: 'c' :: 'r' :: 'i' :: 'p' :: 't' :: 'i' ::
      'o' :: 'n' :: ':' :: ' ' :: v) = some (.description, ' ' :: v) := rfl

theorem lineField_amount_line (v : Text) :
    lineField ('A' :: 'm' :: 'o' :: 'u' :: 'n' :: 't' :: ':' :: ' ' :: v) =
      some (.amount, ' ' :: v) := rfl

theorem lineField_balance_line (v : Text) :
    lineField ('B' :: 'a' :: 'l' :: 'a' :: 'n' :: 'c' :: 'e' :: ':' :: ' ' ::
      v) = some (.balance, ' ' :: v) := rfl

theorem beq_eq_false_of_ws_mismatch {c x : Char} (hc : isWS c = false)
    (hx : isWS x = true) : (c == x) = false := by
  by_cases h : (c == x) = true
  · have : c = x := eq_of_beq h
    subst this
    rw [hc] at hx
    cases hx
  · simpa using h

theorem normalizeDesc_mem (x : Text) :
    ∀ c ∈ normalizeDesc x, c = ' ' ∨ isWS c = false :=
  collapseAux_mem (trim x) false

theorem renderDecSigned_class (d : Dec) :
    ∀ c ∈ renderDecSigned d, isWS c = false := by
  intro c hc
  simp only [renderDecSigned] at hc
  rcases List.mem_cons.1 hc with hc | hc
  · split at hc <;> (subst hc; decide)
  · rcases renderDecMag_chars d c hc with h | h
    · exact not_ws_of_digit h
    · subst h; decide

theorem renderDecPlain_class (d : Dec) :
    ∀ c ∈ renderDecPlain d, isWS c = false := by
  intro c hc
  simp only [renderDecPlain] at hc
  have hmag : ∀ c ∈ renderDecMag d, isWS c = false := by
    intro c hc
    rcases renderDecMag_chars d c hc with h | h
    · exact not_ws_of_digit h
    · subst h; decide
  split at hc
  · rcases List.mem_cons.1 hc with hc | hc
    · subst hc; decide
    · exact hmag c hc
  · exact hmag c hc

/-- Character classification for a rendered line: every character is a space
or non-whitespace (in particular neither a newline nor a carriage return). -/
theorem dateLine_class (dt : ParsedDate) :
    ∀ c ∈ "Date: ".data ++ renderDate dt, c = ' ' ∨ isWS c = false := by
  intro c hc
  rcases List.mem_append.1 hc with hc | hc
  · have hc' : c ∈ ['D', 'a', 't', 'e', ':', ' '] := hc
    fin_cases hc' <;> decide
  · exact Or.inr (renderDate_no_ws dt c hc)

theorem descLine_class (desc : Text)
    (hdesc : ∀ c ∈ desc, c = ' ' ∨ isWS c = false) :
    ∀ c ∈ "Description: ".data ++ desc, c = ' ' ∨ isWS c = false := by
  intro c hc
  rcases List.mem_append.1 hc with hc | hc
  · have hc' : c ∈ ['D', 'e', 's', 'c', 'r', 'i', 'p', 't', 'i', 'o', 'n',
      ':', ' '] := hc
    fin_cases hc' <;> decide
  · exact hdesc c hc

theorem amountLine_class (d : Dec) :
    ∀ c ∈ "Amount: ".data ++ renderDecSigned d, c = ' ' ∨ isWS c = false := by
  intro c hc
  rcases List.mem_append.1 hc with hc | hc
  · have hc' : c ∈ ['A', 'm', 'o', 'u', 'n', 't', ':', ' '] := hc
    fin_cases hc' <;> decide
  · exact Or.inr (renderDecSigned_class d c hc)

theorem balanceLine_class (d : Dec) :
    ∀ c ∈ "Balance: ".data ++ renderDecPlain d, c = ' ' ∨ isWS c = false := by
  intro c hc
  rcases List.mem_append.1 hc with hc | hc
  · have hc' : c ∈ ['B', 'a', 'l', 'a', 'n', 'c', 'e', ':', ' '] := hc
    fin_cases hc' <;> decide
  · exact Or.inr (renderDecPlain_class d c hc)

theorem class_no_nl {t : Text} (h : ∀ c ∈ t, c = ' ' ∨ isWS c = false) :
    ∀ c ∈ t, (c == '\n') = false := by
  intro c hc
  rcases h c hc with h | h
  · subst h; decide
  · exact beq_eq_false_of_ws_mismatch h (by decide)

theorem stripCR_fix (t : Text) (h : ∀ c ∈ t, c = ' ' ∨ isWS c = false) :
    stripCR t = t := by
  unfold stripCR
  split
  · rfl
  · rename_i c rest heq
    by_cases hco : c = '\r'
    · exfalso
      subst hco
      have hc : '\r' ∈ t := by
        have : '\r' ∈ t.reverse := by rw [heq]; simp
        simpa using this
      rcases h _ hc with hx | hx
      · cases hx
      · simp [isWS] at hx
    · rw [if_neg hco]

theorem splitLines_render (r : TransactionRecord)
    (hdesc : ∀ c ∈ r.description, c = ' ' ∨ isWS c = false) :
    splitLines (render r) =
      ("Date: ".data ++ renderDate r.date) ::
      ("Description: ".data ++ r.description) ::
      ("Amount: ".data ++ renderDecSigned r.amount.value) ::
      (match r.balanceAfter with
       | none => []
       | some b => ["Balance: ".data ++ renderDecPlain b]) := by
  unfold splitLines render
  cases hbal : r.balanceAfter with
  | none =>
    dsimp only
    rw [splitOnC_append '\n' _ _ (class_no_nl (dateLine_class r.date))]
    rw [splitOnC_append '\n' _ _ (class_no_nl (descLine_class _ hdesc))]
    rw [List.append_nil, splitOnC_sep_free '\n' _
      (class_no_nl (amountLine_class r.amount.value))]
    simp only [List.map_cons, List.map_nil]
    rw [stripCR_fix _ (dateLine_class r.date),
      stripCR_fix _ (descLine_class _ hdesc),
      stripCR_fix _ (amountLine_class r.amount.value)]
  | some b =>
    dsimp only
    rw [splitOnC_append '\n' _ _ (class_no_nl (dateLine_class r.date))]
    rw [splitOnC_append '\n' _ _ (class_no_nl (descLine_class _ hdesc))]
    rw [splitOnC_append '\n' _ _ (class_no_nl (amountLine_class r.amount.value))]
    rw [splitOnC_sep_free '\n' _ (class_no_nl (balanceLine_class b))]
    simp only [List.map_cons, List.map_nil]
    rw [stripCR_fix _ (dateLine_class r.date),
      stripCR_fix _ (descLine_class _ hdesc),
      stripCR_fix _ (amountLine_class r.amount.value),
      stripCR_fix _ (balanceLine_class b)]

theorem tokenize_render (r : TransactionRecord)
    (hdesc : ∀ c ∈ r.description, c = ' ' ∨ isWS c = false) :
    tokenize (render r) =
      ⟨some (' ' :: renderDate r.date), some (' ' :: r.description),
       some (' ' :: renderDecSigned r.amount.value),
       r.balanceAfter.map (fun b => ' ' :: renderDecPlain b)⟩ := by
  unfold tokenize
  rw [splitLines_render r hdesc]
  cases hbal : r.balanceAfter with
  | none => rfl
  | some b => rfl

theorem mem_dropWhile_of_neg (p : Char → Bool) (c : Char) :
    ∀ l : Text, c ∈ l → p c = false → c ∈ l.dropWhile p := by
  intro l
  induction l with
  | nil => intro h _; cases h
  | cons x r ih =>
    intro hc hpc
    by_cases hx : p x = true
    · rw [List.dropWhile_cons_of_pos hx]
      rcases List.mem_cons.1 hc with hc | hc
      · subst hc; rw [hpc] at hx; cases hx
      · exact ih hc hpc
    · rw [List.dropWhile_cons_of_neg hx]
      exact hc

/-- Non-whitespace characters survive trimming. -/
theorem mem_trim_of_not_ws (t : Text) (c : Char) (hc : c ∈ t)
    (hws : isWS c = false) : c ∈ trim t := by
  unfold trim trimLeft trimRight
  have h1 : c ∈ t.dropWhile isWS := mem_dropWhile_of_neg isWS c t hc hws
  have h2 : c ∈ (t.dropWhile isWS).reverse := by simpa using h1
  have h3 := mem_dropWhile_of_neg isWS c _ h2 hws
  simpa using h3

theorem floor0_mono {x y : Int} (h : x ≤ y) : floor0 x ≤ floor0 y := by
  unfold floor0
  split <;> split <;> omega

/-- Evaluation of `extract` on a rendered well-formed record: it succeeds,
reproducing the record's fields with explicit-sign provenance and an
unambiguous date. -/
theorem extract_render (r : TransactionRecord)
    (hdesc_mem : ∀ c ∈ r.description, c = ' ' ∨ isWS c = false)
    (hdesc_fix : normalizeDesc r.description = r.description)
    (hdesc_ne : r.description ≠ [])
    (hdate : validDate r.date.year r.date.month r.date.day = true)
    (hamt : r.amount.value.mantissa ≠ 0) :
    extract (render r) none =
      .ok (assemble r.date false r.description
        ⟨r.amount.value, .explicitSign⟩ r.balanceAfter) := by
  have hD : 'D' ∈ render r := by
    unfold render
    have h0 : 'D' ∈ "Date: ".data := by decide
    exact List.mem_append.2 (Or.inl (List.mem_append.2 (Or.inl h0)))
  have htrim_ne : (trim (render r)).isEmpty = false := by
    have hmem := mem_trim_of_not_ws (render r) 'D' hD (by decide)
    cases h : trim (render r) with
    | nil => rw [h] at hmem; cases hmem
    | cons a l => rfl
  have hnd : normalizeDesc (' ' :: r.description) = r.description := by
    unfold normalizeDesc at hdesc_fix ⊢
    rw [trim_space_cons]
    exact hdesc_fix
  have hie : r.description.isEmpty = false := by
    cases h : r.description with
    | nil => exact absurd h hdesc_ne
    | cons a l => rfl
  have htok := tokenize_render r hdesc_mem
  have hpd := parseDate_space_renderDate r.date hdate
  have hpa := parseAmount_space_renderDecSigned r.amount.value
  cases hbal : r.balanceAfter with
  | none =>
    rw [hbal] at htok
    simp only [extract, htok, htrim_ne, Bool.false_eq_true, if_false,
      Option.map_none', require, andThen, hpd, hnd, hie, hpa, requireDesc,
      requireAmt, if_neg hamt, requireBal, hbal]
    rfl
  | some b =>
    rw [hbal] at htok
    obtain ⟨prov, hpb⟩ := parseAmount_space_renderDecPlain b
    simp only [extract, htok, htrim_ne, Bool.false_eq_true, if_false,
      Option.map_some', require, andThen, hpd, hnd, hie, hpa, requireDesc,
      requireAmt, if_neg hamt, requireBal, hpb, hbal]
    rfl

/-! ## Rational-value semantics of the exact decimal arithmetic -/

theorem scaleTo_toRat (d : Dec) (E : Nat) (h : d.exp ≤ E) :
    ((d.scaleTo E : Int) : Rat) = d.toRat * (10 : Rat) ^ E := by
  unfold Dec.scaleTo Dec.toRat
  push_cast
  have h10 : (10 : Rat) ^ E = 10 ^ (E - d.exp) * 10 ^ d.exp := by
    rw [← pow_add]
    congr 1
    omega
  rw [h10]
  have hne : (10 : Rat) ^ d.exp ≠ 0 := by positivity
  field_simp
  ring

theorem Dec.add_toRat (a b : Dec) :
    (Dec.add a b).toRat = a.toRat + b.toRat := by
  show ((a.scaleTo (max a.exp b.exp) + b.scaleTo (max a.exp b.exp) : Int) :
      Rat) / (10 : Rat) ^ (max a.exp b.exp) = a.toRat + b.toRat
  push_cast
  rw [scaleTo_toRat a _ (le_max_left _ _), scaleTo_toRat b _ (le_max_right _ _)]
  have hne : (10 : Rat) ^ (max a.exp b.exp) ≠ 0 := by positivity
  field_simp
  ring

theorem Dec.sub_toRat (a b : Dec) :
    (Dec.sub a b).toRat = a.toRat - b.toRat := by
  show ((a.scaleTo (max a.exp b.exp) - b.scaleTo (max a.exp b.exp) : Int) :
      Rat) / (10 : Rat) ^ (max a.exp b.exp) = a.toRat - b.toRat
  push_cast
  rw [scaleTo_toRat a _ (le_max_left _ _), scaleTo_toRat b _ (le_max_right _ _)]
  have hne : (10 : Rat) ^ (max a.exp b.exp) ≠ 0 := by positivity
  field_simp
  ring

theorem Dec.absD_toRat (d : Dec) : (Dec.absD d).toRat = |d.toRat| := by
  show ((d.mantissa.natAbs : Int) : Rat) / (10 : Rat) ^ d.exp = |d.toRat|
  unfold Dec.toRat
  rw [abs_div]
  congr 1
  · push_cast [Int.cast_natAbs]
    ring_nf
  · rw [abs_of_pos (by positivity)]

theorem Dec.leD_iff (a b : Dec) :
    Dec.leD a b = true ↔ a.toRat ≤ b.toRat := by
  show decide (a.scaleTo (max a.exp b.exp) ≤ b.scaleTo (max a.exp b.exp)) =
      true ↔ _
  rw [decide_eq_true_iff]
  rw [show (a.scaleTo (max a.exp b.exp) ≤ b.scaleTo (max a.exp b.exp)) ↔
      ((a.scaleTo (max a.exp b.exp) : Int) : Rat) ≤
        ((b.scaleTo (max a.exp b.exp) : Int) : Rat) from Int.cast_le.symm]
  rw [scaleTo_toRat a _ (le_max_left _ _), scaleTo_toRat b _ (le_max_right _ _)]
  exact mul_le_mul_iff_of_pos_right (by positivity)

theorem epsilon_toRat : epsilon.toRat = 1 / 100 := by
  norm_num [epsilon, Dec.toRat]

/-- A successful extraction also passes its own validation again: `extract`'s
result came through `finalize` unchanged. -/
theorem extract_ok_finalize (text : Text) (p : Option Dec)
    (r : TransactionRecord) (h : extract text p = .ok r) :
    finalize r p = .ok r := by
  simp only [extract] at h
  split at h
  · cases h
  · obtain ⟨dspan, _, h⟩ := andThen_ok _ _ _ h
    obtain ⟨descspan, _, h⟩ := andThen_ok _ _ _ h
    obtain ⟨aspan, _, h⟩ := andThen_ok _ _ _ h
    obtain ⟨da, _, h⟩ := andThen_ok _ _ _ h
    obtain ⟨desc, _, h⟩ := andThen_ok _ _ _ h
    obtain ⟨a, _, h⟩ := andThen_ok _ _ _ h
    obtain ⟨bal, _, h⟩ := andThen_ok _ _ _ h
    have hra := (finalize_ok _ _ _ h).1
    rw [← hra] at h
    exact h

/-- A record that survives `finalize` with a supplied prior balance and a
present balance passed the epsilon check. -/
theorem finalize_ok_balance (r : TransactionRecord) (pb : Dec)
    (r' : TransactionRecord) (bal : Dec) (h : finalize r (some pb) = .ok r')
    (hbal : r.balanceAfter = some bal) :
    Dec.leD (Dec.absD (Dec.sub (Dec.add pb r.amount.value) bal)) epsilon
      = true := by
  simp only [finalize, hbal] at h
  by_cases hle : Dec.leD (Dec.absD (Dec.sub (Dec.add pb r.amount.value) bal))
      epsilon = true
  · exact hle
  · rw [if_neg hle] at h
    cases h

/-! ## Theorems for the claims -/

/-- C1: on the Starbucks input with priorBalance 18840.50, `extract` returns
`Ok` with date 2025-12-11, description "STARBUCKS COFFEE MUMBAI", amount
−420.00, balanceAfter 18420.50, and confidence at least 0.85 (here exactly
1.0, i.e. 100 hundredths). -/
theorem extract_starbucks_ok :
    extract starbucksText (some ⟨1884050, 2⟩) = .ok starbucksRecord ∧
    (85 : Int) ≤ starbucksRecord.confidence := by
  constructor
  · rfl
  · decide

/-- C2: on the Starbucks input with priorBalance 19000.00, `extract` returns
`BalanceMismatch(expected, actual, delta)` whose components have the rational
values 18580.00, 18420.50 and 159.50; and in general, whenever the caller
supplies a prior balance and the record carries a balance, the engine checks
`priorBalance + amount == balanceAfter` within epsilon = 0.01 in exact
rational arithmetic: if the absolute deviation exceeds 0.01 the validator
returns `BalanceMismatch` carrying decimals whose rational values are the
computed expected sum, the actual balance and the absolute delta; if the
deviation is within 0.01 validation proceeds to the confidence gate; and
every record `extract` returns with a supplied prior balance and a present
balance satisfies the epsilon bound. -/
theorem extract_balance_mismatch :
    (extract starbucksText (some ⟨1900000, 2⟩) =
      .error (.balanceMismatch ⟨1858000, 2⟩ ⟨1842050, 2⟩ ⟨15950, 2⟩)) ∧
    (Dec.toRat ⟨1858000, 2⟩ = 18580 ∧ Dec.toRat ⟨1842050, 2⟩ = 36841 / 2 ∧
      Dec.toRat ⟨15950, 2⟩ = 319 / 2) ∧
    (∀ (r : TransactionRecord) (pb bal : Dec), r.balanceAfter = some bal →
      ¬(|pb.toRat + r.amount.value.toRat - bal.toRat| ≤ 1 / 100) →
      ∃ expected actual delta : Dec,
        finalize r (some pb) =
          .error (.balanceMismatch expected actual delta) ∧
        expected.toRat = pb.toRat + r.amount.value.toRat ∧
        actual.toRat = bal.toRat ∧
        delta.toRat = |pb.toRat + r.amount.value.toRat - bal.toRat|) ∧
    (∀ (r : TransactionRecord) (pb bal : Dec), r.balanceAfter = some bal →
      |pb.toRat + r.amount.value.toRat - bal.toRat| ≤ 1 / 100 →
      finalize r (some pb) = gate r) ∧
    (∀ (text : Text) (pb : Dec) (r : TransactionRecord) (bal : Dec),
      extract text (some pb) = .ok r → r.balanceAfter = some bal →
      |pb.toRat + r.amount.value.toRat - bal.toRat| ≤ 1 / 100) := by
  refine ⟨rfl, ⟨?_, ?_, ?_⟩, ?_, ?_, ?_⟩
  · norm_num [Dec.toRat]
  · norm_num [Dec.toRat]
  · norm_num [Dec.toRat]
  · intro r pb bal hbal hfar
    have hf : Dec.leD (Dec.absD (Dec.sub (Dec.add pb r.amount.value) bal))
        epsilon = false := by
      rw [Bool.eq_false_iff]
      intro hle
      rw [Dec.leD_iff, Dec.absD_toRat, Dec.sub_toRat, Dec.add_toRat,
        epsilon_toRat] at hle
      exact hfar hle
    refine ⟨Dec.add pb r.amount.value, bal,
      Dec.absD (Dec.sub (Dec.add pb r.amount.value) bal), ?_, ?_, rfl, ?_⟩
    · simp [finalize, hbal, hf]
    · rw [Dec.add_toRat]
    · rw [Dec.absD_toRat, Dec.sub_toRat, Dec.add_toRat]
  · intro r pb bal hbal hnear
    have hle : Dec.leD (Dec.absD (Dec.sub (Dec.add pb r.amount.value) bal))
        epsilon = true := by
      rw [Dec.leD_iff, Dec.absD_toRat, Dec.sub_toRat, Dec.add_toRat,
        epsilon_toRat]
      exact hnear
    simp [finalize, hbal, hle]
  · intro text pb r bal hex hbal
    have hfin := extract_ok_finalize text (some pb) r hex
    have hle := finalize_ok_balance r pb r bal hfin hbal
    rw [Dec.leD_iff, Dec.absD_toRat, Dec.sub_toRat, Dec.add_toRat,
      epsilon_toRat] at hle
    exact hle

/-- C2 witness: the general mismatch clause applied to a concrete record
whose deviation 159.50 exceeds 0.01. -/
theorem extract_balance_mismatch_witness :
    ∃ expected actual delta : Dec,
      finalize ⟨⟨2025, 12, 11⟩, ['X'], ⟨⟨-42000, 2⟩, .explicitSign⟩,
          some ⟨1842050, 2⟩, 100⟩ (some ⟨1900000, 2⟩) =
        .error (.balanceMismatch expected actual delta) ∧
      expected.toRat = Dec.toRat ⟨1900000, 2⟩ + Dec.toRat ⟨-42000, 2⟩ ∧
      actual.toRat = Dec.toRat ⟨1842050, 2⟩ ∧
      delta.toRat = |Dec.toRat ⟨1900000, 2⟩ + Dec.toRat ⟨-42000, 2⟩ -
        Dec.toRat ⟨1842050, 2⟩| :=
  extract_balance_mismatch.2.2.1 _ _ _ rfl (by
    show ¬(|Dec.toRat ⟨1900000, 2⟩ + Dec.toRat ⟨-42000, 2⟩ -
      Dec.toRat ⟨1842050, 2⟩| ≤ 1 / 100)
    rw [show Dec.toRat ⟨1900000, 2⟩ + Dec.toRat ⟨-42000, 2⟩ -
        Dec.toRat ⟨1842050, 2⟩ = 319 / 2 by norm_num [Dec.toRat]]
    rw [abs_of_pos (by norm_num)]
    norm_num)

/-- C3: slash-date disambiguation — a first number above 12 forces the
`DD/MM/YYYY` reading (not flagged ambiguous); when both numbers are at most
12 the `DD/MM/YYYY` reading is chosen (flagged ambiguous); a chosen reading
whose month is outside 1–12, whose day is invalid for the month/year, or
whose year falls outside the plausible window fails (`validDate = false`
covers exactly these conditions), surfaced by `extract` as
`UnparseableDate`; `03/04/2025` reads as day 3, month 4 and `25/13/2025`
fails. -/
theorem slash_date_rules :
    ∀ a b y : Nat,
      (12 < a → validDate y b a = true →
        parseDate (slashText a b y) = some (⟨y, b, a⟩, false)) ∧
      (a ≤ 12 → b ≤ 12 → validDate y b a = true →
        parseDate (slashText a b y) = some (⟨y, b, a⟩, true)) ∧
      (12 < a → validDate y b a = false →
        parseDate (slashText a b y) = none) ∧
      (a ≤ 12 → b ≤ 12 → validDate y b a = false →
        parseDate (slashText a b y) = none) ∧
      (a ≤ 12 → 12 < b → validDate y a b = false →
        parseDate (slashText a b y) = none) ∧
      parseDate "03/04/2025".data = some (⟨2025, 4, 3⟩, true) ∧
      extract "Date: 25/13/2025\nDescription: COFFEE\nAmount: -420.00".data
          none =
        .error (.unparseableDate "25/13/2025".data) := by
  intro a b y
  refine ⟨?_, ?_, ?_, ?_, ?_, by decide, by decide⟩
  · intro ha hv
    rw [parseDate_slashText]
    simp [slashResolve, ha, hv]
  · intro ha hb hv
    rw [parseDate_slashText]
    simp [slashResolve, Nat.not_lt.2 ha, hb, hv]
  · intro ha hv
    rw [parseDate_slashText]
    simp [slashResolve, ha, hv]
  · intro ha hb hv
    rw [parseDate_slashText]
    simp [slashResolve, Nat.not_lt.2 ha, hb, hv]
  · intro ha hb hv
    rw [parseDate_slashText]
    simp [slashResolve, Nat.not_lt.2 ha, Nat.not_le.2 hb, hv]

/-- C3 witness: the unambiguous clause at 25/12/2025 and the ambiguous
clause at 3/4/2025, with hypotheses discharged concretely. -/
theorem slash_date_rules_witness :
    parseDate (slashText 25 12 2025) = some (⟨2025, 12, 25⟩, false) ∧
    parseDate (slashText 3 4 2025) = some (⟨2025, 4, 3⟩, true) :=
  ⟨(slash_date_rules 25 12 2025).1 (by decide) (by decide),
   (slash_date_rules 3 4 2025).2.1 (by decide) (by decide) (by decide)⟩

/-- C4: sign-resolution precedence — an explicit leading sign wins; else a
Dr/Cr marker decides (Dr negative, Cr positive); else parentheses mean
negative; else the sign is inferred positive with `inferred` provenance (so
any span parsed without an explicit mark, balances included, comes out
non-negative); the record assembler's penalty for a present balance depends
only on the amount's provenance, never on how the balance's sign was
derived. -/
theorem sign_resolution_precedence :
    (∀ (n : Bool) (m : Option Bool) (p : Bool),
      resolveSign (some n) m p = (n, .explicitSign)) ∧
    (∀ (n : Bool) (p : Bool), resolveSign none (some n) p = (n, .marker)) ∧
    resolveSign none none true = (true, .parenthesized) ∧
    resolveSign none none false = (false, .inferred) ∧
    (∀ (t : Text) (pa : ParsedAmount), parseAmount t = some pa →
      pa.provenance = .inferred → 0 ≤ pa.value.mantissa) ∧
    (∀ (d : ParsedDate) (ambig : Bool) (desc : Text) (a : ParsedAmount)
        (bal : Dec),
      (assemble d ambig desc a (some bal)).confidence =
        floor0 (100 - ((if a.provenance = .inferred then signPenalty else 0) +
          (if ambig then datePenalty else 0)))) ∧
    parseAmount "5.00 Dr".data = some ⟨⟨-500, 2⟩, .marker⟩ ∧
    parseAmount "Cr 7.00".data = some ⟨⟨700, 2⟩, .marker⟩ ∧
    parseAmount "(5.00)".data = some ⟨⟨-500, 2⟩, .parenthesized⟩ ∧
    parseAmount "+5.00 Dr".data = some ⟨⟨500, 2⟩, .explicitSign⟩ ∧
    parseAmount "-7.00 Cr".data = some ⟨⟨-700, 2⟩, .explicitSign⟩ ∧
    parseAmount "18420.50".data = some ⟨⟨1842050, 2⟩, .inferred⟩ := by
  refine ⟨fun n m p => rfl, fun n p => rfl, rfl, rfl, ?_,
    fun d ambig desc a bal => by simp [assemble],
    by decide, by decide, by decide, by decide, by decide, by decide⟩
  intro t pa h hp
  simp only [parseAmount, Option.map_eq_some'] at h
  obtain ⟨d, hd, hpa⟩ := h
  rw [← hpa] at hp
  simp only [mkAmount] at hp
  have h1 := resolveSign_snd_inferred _ _ _ hp
  rw [← hpa]
  simp only [mkAmount, h1, Bool.false_eq_true, if_false]
  exact parseDecLit_nonneg _ _ hd

/-- C4 witness: the general inferred-positive clause applied to the plain
span `18420.50`. -/
theorem sign_resolution_precedence_witness :
    (0 : Int) ≤
      (ParsedAmount.mk ⟨1842050, 2⟩ .inferred).value.mantissa :=
  sign_resolution_precedence.2.2.2.2.1 "18420.50".data
    ⟨⟨1842050, 2⟩, .inferred⟩ (by decide) rfl

/-- C6: tokenizer precedence rules — the labeled scan resolves every field
kind to the last labeled occurrence of that kind, and whenever some labeled
line matches a kind, the tokenizer's output for that kind is exactly that
labeled value (so pattern-based inference is skipped for it); concretely, a
restated `Amount` line wins over an earlier one. -/
theorem tokenizer_label_precedence :
    (∀ (lines : List Text) (k : FieldKind),
      (labeledScan lines).get k = lastLabeled lines k) ∧
    (∀ (text : Text) (k : FieldKind) (v : Text),
      lastLabeled (splitLines text) k = some v →
      (tokenize text).get k = some v) ∧
    (tokenize "Amount: 1\nDate: 11 Dec 2025\nAmount: 2\nDescription: Y".data).get
        .amount = some " 2".data := by
  refine ⟨labeledScan_eq_lastLabeled, ?_, by decide⟩
  intro text k v h
  unfold tokenize
  exact inferSpans_get_of_some text _ k v
    ((labeledScan_eq_lastLabeled (splitLines text) k).trans h)

/-- C6 witness: the labeled-precedence clause at the concrete duplicated
`Amount` input. -/
theorem tokenizer_label_precedence_witness :
    (tokenize "Amount: 1\nAmount: 2\nDate: x".data).get .amount =
      some " 2".data :=
  tokenizer_label_precedence.2.1 "Amount: 1\nAmount: 2\nDate: x".data
    .amount " 2".data (by decide)

/-- C5: the assembled confidence equals 1.0 minus the sum of exactly the
triggered fixed penalties — 0.3 for an inferred amount sign, 0.1 for a
missing balance, 0.15 exactly when the ambiguous-fallback flag of the date
parse (the Boolean returned alongside the date by `parseDate`) is set —
floored at 0 (additive; the concrete three-trigger input scores 0.45 =
1 − 0.55, not the multiplicative 0.4645…, the two-trigger input scores
exactly 0.55, and the same shape with an unambiguous `11 Dec 2025` date
scores 0.60, showing the 0.15 penalty absent when the flag is off); below
the default 0.5 threshold the validator returns `LowConfidence` instead of
the record, and no returned record is below the threshold. Scores are in
hundredths. -/
theorem confidence_score_rules :
    (∀ (text : Text) (p : Option Dec) (r : TransactionRecord),
      extract text p = .ok r →
      ∃ (dspan : Text) (da : ParsedDate × Bool),
        (tokenize text).date = some dspan ∧
        parseDate dspan = some da ∧
        r.date = da.1 ∧
        r.confidence = floor0 (100 -
          ((if r.amount.provenance = .inferred then signPenalty else 0) +
           (if r.balanceAfter = none then balancePenalty else 0) +
           (if da.2 = true then datePenalty else 0)))) ∧
    (∀ r : TransactionRecord, r.confidence < defaultThreshold →
      gate r = .error (.lowConfidence r.confidence defaultThreshold)) ∧
    (∀ (text : Text) (p : Option Dec) (r : TransactionRecord),
      extract text p = .ok r → defaultThreshold ≤ r.confidence) ∧
    extract "Date: 03/04/2025\nDescription: X\nAmount: 420".data none =
      .error (.lowConfidence 45 50) ∧
    extract "Date: 03/04/2025\nDescription: X\nAmount: 420\nBalance: 9000".data
        none =
      .ok ⟨⟨2025, 4, 3⟩, ['X'], ⟨⟨420, 0⟩, .inferred⟩, some ⟨9000, 0⟩, 55⟩ ∧
    extract "Date: 11 Dec 2025\nDescription: X\nAmount: 420".data none =
      .ok ⟨⟨2025, 12, 11⟩, ['X'], ⟨⟨420, 0⟩, .inferred⟩, none, 60⟩ := by
  refine ⟨?_, ?_, ?_, by decide, by decide, by decide⟩
  · intro text p r h
    obtain ⟨dspan, descspan, aspan, da, a, bal, hd, _, _, hpd, _, _, _, _,
        hr, _⟩ := extract_ok_inv text p r h
    subst hr
    refine ⟨dspan, da, hd, hpd, rfl, ?_⟩
    rw [assemble_confidence]
    cases bal <;> rfl
  · intro r h
    unfold gate
    rw [if_pos h]
  · intro text p r h
    exact (extract_ok_inv text p r h).choose_spec.choose_spec.choose_spec.choose_spec.choose_spec.choose_spec.2.2.2.2.2.2.2.2.2

/-- C5 witness: the gate clause at a concrete below-threshold record, and
the confidence formula at the Starbucks input. -/
theorem confidence_score_rules_witness :
    gate ⟨⟨2025, 12, 11⟩, ['X'], ⟨⟨-42000, 2⟩, .explicitSign⟩, none, 45⟩ =
      .error (.lowConfidence 45 50) :=
  confidence_score_rules.2.1 _ (by decide)

/-- C7: every record returned by `extract` has a nonempty description that
is a fixed point of trim-and-collapse normalization, a non-zero amount, and
a confidence within [0,1] (0–100 hundredths); inputs violating these are
rejected with an `ExtractionError` — a whitespace-only description with
`MissingField(Description)`, a zero amount with `UnparseableAmount`. -/
theorem record_invariants :
    (∀ (text : Text) (p : Option Dec) (r : TransactionRecord),
      extract text p = .ok r →
      r.description ≠ [] ∧
      normalizeDesc r.description = r.description ∧
      r.amount.value.mantissa ≠ 0 ∧
      0 ≤ r.confidence ∧ r.confidence ≤ 100) ∧
    extract "Date: 11 Dec 2025\nDescription:    \nAmount: 5".data none =
      .error (.missingField .description) ∧
    extract "Date: 11 Dec 2025\nDescription: X\nAmount: 0.00".data none =
      .error (.unparseableAmount "0.00".data) := by
  refine ⟨?_, by decide, by decide⟩
  intro text p r h
  obtain ⟨dspan, descspan, aspan, da, a, bal, _, _, _, _, _, hnz, hne, _, hr, _⟩ :=
    extract_ok_inv text p r h
  subst hr
  refine ⟨hne, normalizeDesc_idem descspan, hnz, ?_, ?_⟩
  · exact floor0_nonneg _
  · rw [assemble_confidence]
    refine floor0_le_of_le _ _ ?_ (by omega)
    have h1 : (0:Int) ≤ (if a.provenance = .inferred then signPenalty else 0) := by
      split <;> simp [signPenalty]
    have h2 : (0:Int) ≤ (if bal.isNone then balancePenalty else 0) := by
      split <;> simp [balancePenalty]
    have h3 : (0:Int) ≤ (if da.2 then datePenalty else 0) := by
      split <;> simp [datePenalty]
    omega

/-- C7 witness: the invariants instantiated at the Starbucks extraction. -/
theorem record_invariants_witness :
    starbucksRecord.description ≠ [] ∧
    normalizeDesc starbucksRecord.description = starbucksRecord.description ∧
    starbucksRecord.amount.value.mantissa ≠ 0 ∧
    0 ≤ starbucksRecord.confidence ∧ starbucksRecord.confidence ≤ 100 :=
  record_invariants.1 starbucksText (some ⟨1884050, 2⟩) starbucksRecord
    (by rfl)

/-- C8: round trip through the canonical labeled rendering — for every
record `extract` can produce, re-running `extract` on `render r` yields `Ok`
with the same date, description, amount value and balance, and a confidence
at least the original's (the canonical form loses no information; sign
provenance can only be upgraded to explicit, and the ISO date rendering is
unambiguous). -/
theorem extract_render_roundtrip :
    ∀ (text : Text) (p : Option Dec) (r : TransactionRecord),
      extract text p = .ok r →
      ∃ r', extract (render r) none = .ok r' ∧
        r'.date = r.date ∧ r'.description = r.description ∧
        r'.amount.value = r.amount.value ∧
        r'.balanceAfter = r.balanceAfter ∧
        r.confidence ≤ r'.confidence := by
  intro text p r h
  obtain ⟨dspan, descspan, aspan, da, a, bal, _, _, _, hpd, _, hnz, hne, _,
    hr, _⟩ := extract_ok_inv text p r h
  have hdate := parseDate_valid _ _ _ hpd
  subst hr
  refine ⟨_, extract_render _ ?_ ?_ ?_ ?_ ?_, rfl, rfl, rfl, rfl, ?_⟩
  · exact normalizeDesc_mem descspan
  · exact normalizeDesc_idem descspan
  · exact hne
  · exact hdate
  · exact hnz
  · rw [assemble_confidence, assemble_confidence]
    apply floor0_mono
    simp only [show ((⟨(assemble da.1 da.2 (normalizeDesc descspan) a
      bal).amount.value, .explicitSign⟩ : ParsedAmount).provenance =
        SignProvenance.inferred) = False by simp, if_false,
      Bool.false_eq_true, assemble_balanceAfter, signPenalty, balancePenalty,
      datePenalty]
    split_ifs <;> omega

/-- C8 witness: the round trip at the Starbucks extraction. -/
theorem extract_render_roundtrip_witness :
    ∃ r', extract (render starbucksRecord) none = .ok r' ∧
      r'.date = starbucksRecord.date ∧
      r'.description = starbucksRecord.description ∧
      r'.amount.value = starbucksRecord.amount.value ∧
      r'.balanceAfter = starbucksRecord.balanceAfter ∧
      starbucksRecord.confidence ≤ r'.confidence :=
  extract_render_roundtrip starbucksText (some ⟨1884050, 2⟩) starbucksRecord
    (by rfl)

/-- C9: null/empty invocation fails fast with `MissingField(All)` — for the
empty text and for all-whitespace text alike, and for every prior-balance
argument; the `MissingKind` type extends the four field kinds with the `All`
kind this requires. -/
theorem extract_empty_missing_all :
    ∀ p : Option Dec,
      extract [] p = .error (.missingField .all) ∧
      extract "  \n ".data p = .error (.missingField .all) := by
  intro p
  constructor
  · rfl
  · rfl

/-- C9 witness: the empty-text clause at a concrete prior balance. -/
theorem extract_empty_missing_all_witness :
    extract [] (some ⟨100, 2⟩) = .error (.missingField .all) :=
  (extract_empty_missing_all (some ⟨100, 2⟩)).1

/-- C10: whether the HTTP-request block of `test-routes.py` completes
normally (`raiseAt = none`) or raises at any of its statements, the
subprocess event trace of the script is always spawn, then terminate, then
wait — the `finally:` block runs `proc.terminate()` and `proc.wait()` on
every path, so the server process is never left running. -/
theorem testRoutes_always_cleans_up :
    ∀ raiseAt : Option Nat,
      (testRoutesScript raiseAt).1 = [.popen, .terminate, .wait] := by
  have silent : ∀ (l : List PyStmt) (ra : Option Nat) (tr : List ProcEvent),
      (∀ s ∈ l, stepEvents s = []) → (runStmts l ra tr).1 = tr := by
    intro l
    induction l with
    | nil => intro ra tr _; cases ra <;> rfl
    | cons s rest ih =>
      intro ra tr hsil
      have hs : stepEvents s = [] := hsil s (by simp)
      have hrest : ∀ s ∈ rest, stepEvents s = [] := by
        intro x hx; exact hsil x (by simp [hx])
      match ra with
      | none => simpa [runStmts, hs] using ih none tr hrest
      | some 0 => rfl
      | some (n + 1) => simpa [runStmts, hs] using ih (some n) tr hrest
  intro raiseAt
  show (runStmts [PyStmt.terminateStmt, PyStmt.waitStmt] none
      (runStmts httpBlock raiseAt [ProcEvent.popen]).1).1 = _
  rw [silent httpBlock raiseAt [ProcEvent.popen] ?_]
  · rfl
  · intro s hs
    have : s = PyStmt.httpStep := by
      simpa [httpBlock] using List.eq_of_mem_replicate hs
    simp [this, stepEvents]

/-- C10 witness: the cleanup trace when the third HTTP statement raises. -/
theorem testRoutes_always_cleans_up_witness :
    (testRoutesScript (some 3)).1 = [.popen, .terminate, .wait] :=
  testRoutes_always_cleans_up (some 3)

end FTE
